import Mathlib

/-!
# Formal model of the COMP0174 analyser (`src/analyse.py`)

A shallow embedding of the AST-to-CFG-and-facts builder of `analyse.py`:
the expression classifier (`is_deref` / `is_address` / `is_var` / `is_const`
and `ExpressionVisitor`), the fragment builder (`StatementVisitor` and its
`visit_*` methods), `generate_cfg`, and the fact-file round trip
(`write_relations` / `load_relations`).

Python's process-wide mutable visitor state (the label counter and the
relation tables) is threaded explicitly as a `BuildState`; fallible code
returns `Except BuildError`.  Python `set`s are modelled as `Finset String`.
The graphviz rendering object (`self.cfg`) is external diagram state and is
not part of the model; only the `flow` relation it runs alongside is.
-/

namespace Analyse

/-- The exceptions a build can raise.  `unsupported` models
`UnsupportedLanguageConstruct` with its message tag; `assertionError` models a
failed Python `assert`; `nameError` models a Python `NameError` (raised when
code references an undefined variable); `pythonError` models other built-in
Python exceptions (`TypeError`, `ValueError`) from failed unpacking. -/
inductive BuildError where
  | unsupported (tag : String)
  | assertionError
  | nameError (name : String)
  | pythonError (kind : String)
deriving DecidableEq, Repr

/-- pycparser expression nodes, restricted to the node classes the two
visitors dispatch on; `otherExpr kind` stands for every other node class
(array subscript, nested call, ternary, ...), carrying the class name that
the reflective `visit_<ClassName>` dispatch would see. -/
inductive CExpr where
  | constant (value : String)
  | id (name : String)
  | unaryOp (op : String) (expr : CExpr)
  | binaryOp (op : String) (left right : CExpr)
  | otherExpr (kind : String)
deriving DecidableEq, Repr

/-- `is_deref(n)`: a `UnaryOp` with operator `*` whose operand is an `ID`;
returns the operand's name. -/
def is_deref : CExpr → Option String
  | .unaryOp op (.id name) => if op = "*" then some name else none
  | _ => none

/-- `is_address(n)`: a `UnaryOp` with operator `&` whose operand is an `ID`;
returns the operand's name. -/
def is_address : CExpr → Option String
  | .unaryOp op (.id name) => if op = "&" then some name else none
  | _ => none

/-- `is_var(n)`: an `ID` node. -/
def is_var : CExpr → Option String
  | .id name => some name
  | _ => none

/-- `is_const(n)`: a `Constant` node (its value, already a string). -/
def is_const : CExpr → Option String
  | .constant value => some value
  | _ => none

namespace ExpressionVisitor

/-- `ExpressionVisitor.visit`: the recursive read scan, accumulating the pair
`(variables, deref_variables)`.  Dispatch on an unknown node class hits
`generic_visit`, which raises `UnsupportedLanguageConstruct` with the class
name. -/
def visit : CExpr → Except BuildError (Finset String × Finset String)
  | .constant _ => .ok (∅, ∅)
  | .id name => .ok ({name}, ∅)
  | .unaryOp op expr =>
      -- `visit_UnaryOp`: a dereference of a bare variable stops the descent;
      -- any other unary operator (including `&`) descends into the operand.
      match is_deref (.unaryOp op expr) with
      | some v => .ok (∅, {v})
      | none => visit expr
  | .binaryOp _ left right =>
      -- `visit_BinaryOp`: descend into both operands, ignoring `n.op`.
      match visit left with
      | .error e => .error e
      | .ok (v₁, d₁) =>
        match visit right with
        | .error e => .error e
        | .ok (v₂, d₂) => .ok (v₁ ∪ v₂, d₁ ∪ d₂)
  | .otherExpr kind => .error (.unsupported kind)

/-- `ExpressionVisitor.visit` applied to a possibly absent node: visiting
Python's `None` dispatches on the class name `NoneType`, finds no
`visit_NoneType` method, and `generic_visit` raises. -/
def visitOpt : Option CExpr → Except BuildError (Finset String × Finset String)
  | none => .error (.unsupported "NoneType")
  | some e => visit e

end ExpressionVisitor

/-- pycparser statement nodes that `StatementVisitor` dispatches on.
`compound` carries `block_items`, which pycparser leaves as `None` for an
empty `{}` body.  `funcCall` carries the callee name (`n.name.name`) and
`n.args` (`None` when the call has no argument list).  `otherStmt kind`
stands for every other statement class. -/
inductive CStmt where
  | assignment (lvalue rvalue : CExpr)
  | funcCall (name : String) (args : Option (List CExpr))
  | ifStmt (cond : Option CExpr) (iftrue iffalse : Option CStmt)
  | whileStmt (cond : Option CExpr) (stmt : Option CStmt)
  | ret (expr : Option CExpr)
  | compound (block_items : Option (List CStmt))
  | otherStmt (kind : String)

/-- A top-level element of a pycparser `FileAST`: a `FuncDef` (with
`n.decl.name` and `n.body`) or any other declaration kind. -/
inductive CTopLevel where
  | funcDef (name : String) (body : CStmt)
  | otherTop (kind : String)

/-- A pycparser `FileAST`: the list of top-level elements `n.ext`. -/
structure FileAST where
  ext : List CTopLevel

/-- The fact accumulator `self.edb`: one list of string tuples per relation.
Field names follow the Python dict keys (`variable` and `return` are Lean
keywords, hence the guillemets).  `init` and `final` are only assigned in
`generate_cfg`; they are carried as empty lists until then. -/
structure EDB where
  flow : List (String × String)
  label : List String
  «variable» : List String
  assignment : List String
  condition : List String
  «return» : List String
  call : List (String × String)
  function : List String
  used : List (String × String)
  defined : List (String × String)
  defined_deref : List (String × String)
  used_deref : List (String × String)
  rhs_var : List (String × String)
  rhs_const : List (String × String)
  rhs_deref : List (String × String)
  rhs_address : List (String × String)
  call_arg_var : List (String × String × String)
  call_arg_const : List (String × String × String)
  call_arg_deref : List (String × String × String)
  init : List String
  final : List String
deriving DecidableEq, Repr

/-- The mutable state of a `StatementVisitor`: the label counter
(`self._availabe_label_index`, keeping the source's spelling) and the fact
accumulator. -/
structure BuildState where
  _availabe_label_index : Nat
  edb : EDB
deriving DecidableEq, Repr

/-- `StatementVisitor.__init__`: counter starts at 1, every relation empty. -/
def initState : BuildState :=
  { _availabe_label_index := 1,
    edb := { flow := [], label := [], «variable» := [], assignment := [],
             condition := [], «return» := [], call := [], function := [],
             used := [], defined := [], defined_deref := [], used_deref := [],
             rhs_var := [], rhs_const := [], rhs_deref := [], rhs_address := [],
             call_arg_var := [], call_arg_const := [], call_arg_deref := [],
             init := [], final := [] } }

/-- The label string `"l" + str(i)` built by `_new_label`. -/
def mkLabel (i : Nat) : String := "l" ++ Nat.repr i

/-- `StatementVisitor._new_label`: allocate the next label, append it to the
`label` relation and bump the counter. -/
def _new_label (s : BuildState) : String × BuildState :=
  let id := mkLabel s._availabe_label_index
  (id, { s with _availabe_label_index := s._availabe_label_index + 1,
                edb := { s.edb with label := s.edb.label ++ [id] } })

/-- `StatementVisitor._add_elementary_block`: allocates a label via
`_new_label`; the accompanying `self.cfg.node(...)` call only feeds the
external graphviz rendering (the reconstructed source text is diagnostic
only), so the model reduces to `_new_label`. -/
def _add_elementary_block (s : BuildState) : String × BuildState :=
  _new_label s

/-- `StatementVisitor._add_arc`: the `arc_label` tag decorates only the
graphviz edge; the `flow` relation records the untagged pair. -/
def _add_arc (source destination : String) (arc_label : Option String)
    (s : BuildState) : BuildState :=
  let _ := arc_label
  { s with edb := { s.edb with flow := s.edb.flow ++ [(source, destination)] } }

/-- The `for prev in prev_finals: self._add_arc(prev, cur_init)` loops of
`visit_Compound` and `visit_While`: one untagged arc per source. -/
def _add_arcs (sources : List String) (destination : String)
    (s : BuildState) : BuildState :=
  match sources with
  | [] => s
  | src :: rest => _add_arcs rest destination (_add_arc src destination none s)

/-- Iteration over a Python `set`: the iteration order is unspecified in
Python, so the model iterates in the order-canonical sorted order. -/
def setList (t : Finset String) : List String := t.sort (· ≤ ·)

/-- The loop inside `_process_expr` that appends every newly seen variable
name (direct reads chained with dereferenced reads) to the `variable`
relation, skipping names already present. -/
def addVariables (vs : List String) (acc : List String) : List String :=
  vs.foldl (fun acc v => if v ∈ acc then acc else acc ++ [v]) acc

/-- `StatementVisitor._process_expr`: run an `ExpressionVisitor` over the
node, record the variable names, and return `(variables, deref_variables)`. -/
def _process_expr (n : Option CExpr) (s : BuildState) :
    Except BuildError ((Finset String × Finset String) × BuildState) :=
  match ExpressionVisitor.visitOpt n with
  | .error e => .error e
  | .ok (vars, deref_vars) =>
      .ok ((vars, deref_vars),
        { s with edb := { s.edb with
            «variable» := addVariables (setList vars ++ setList deref_vars) s.edb.«variable» } })

/-- `StatementVisitor._add_used`: `used` gets every variable in
`set([*vars, *deref_vars])` (the union), `used_deref` every dereferenced
variable, each paired with the block's label. -/
def _add_used (vars deref_vars : Finset String) (label : String)
    (s : BuildState) : BuildState :=
  { s with edb := { s.edb with
      used := s.edb.used ++ (setList (vars ∪ deref_vars)).map (fun v => (v, label)),
      used_deref := s.edb.used_deref ++ (setList deref_vars).map (fun v => (v, label)) } }

/-- The `for arg in args` loop of `visit_FuncCall`: scan each argument and
record its reads against the call's label. -/
def processArgs (args : List CExpr) (label : String) (s : BuildState) :
    Except BuildError BuildState :=
  match args with
  | [] => .ok s
  | arg :: rest =>
      match _process_expr (some arg) s with
      | .error e => .error e
      | .ok ((arg_vars, arg_deref_vars), s) =>
          processArgs rest label (_add_used arg_vars arg_deref_vars label s)

mutual

/-- `StatementVisitor.visit`: dispatch over the statement node class,
returning the fragment `(entry label, open exit labels)` and threading the
visitor state.  Each branch mirrors the corresponding `visit_*` method;
`otherStmt` hits `generic_visit`, which raises. -/
def visit : CStmt → BuildState → Except BuildError ((String × List String) × BuildState)
  | .assignment lvalue rvalue, s =>
      -- visit_Assignment
      let (label, s) := _add_elementary_block s
      match _process_expr (some rvalue) s with
      | .error e => .error e
      | .ok ((rvalue_vars, rvalue_deref_vars), s) =>
        let s := _add_used rvalue_vars rvalue_deref_vars label s
        -- the four `if is_*(n.rvalue):` appends target four distinct
        -- relations, so their sequential composition is one update
        let s := { s with edb := { s.edb with
          rhs_deref := s.edb.rhs_deref ++
            (match is_deref rvalue with
             | some v => [(v, label)]
             | none => []),
          rhs_address := s.edb.rhs_address ++
            (match is_address rvalue with
             | some v => [(v, label)]
             | none => []),
          rhs_var := s.edb.rhs_var ++
            (match is_var rvalue with
             | some v => [(v, label)]
             | none => []),
          rhs_const := s.edb.rhs_const ++
            (match is_const rvalue with
             | some v => [(v, label)]
             | none => []) } }
        match _process_expr (some lvalue) s with
        | .error e => .error e
        | .ok ((lvalue_vars, lvalue_deref_vars), s) =>
          if lvalue_vars.card = 1 ∧ lvalue_deref_vars.card = 0 then
            -- `list(lvalue_vars)[0]` is the unique element of the set
            let s := { s with edb := { s.edb with
              defined := s.edb.defined ++ (setList lvalue_vars).map (fun v => (v, label)) } }
            let s := { s with edb := { s.edb with
              assignment := s.edb.assignment ++ [label] } }
            .ok ((label, [label]), s)
          else if lvalue_vars.card = 0 ∧ lvalue_deref_vars.card = 1 then
            let s := { s with edb := { s.edb with
              defined_deref := s.edb.defined_deref ++ (setList lvalue_deref_vars).map (fun v => (v, label)) } }
            let s := { s with edb := { s.edb with
              assignment := s.edb.assignment ++ [label] } }
            .ok ((label, [label]), s)
          else
            -- `raise UnsupportedLanguageConstruct(n)`: the payload is the
            -- assignment node itself; we record its class name.
            .error (.unsupported "Assignment")
  | .funcCall name args, s =>
      -- visit_FuncCall
      let (label, s) := _add_elementary_block s
      let s := if name ∈ s.edb.function then s
               else { s with edb := { s.edb with function := s.edb.function ++ [name] } }
      let s := { s with edb := { s.edb with call := s.edb.call ++ [(name, label)] } }
      match args with
      | none => .ok ((label, [label]), s)   -- `if n.args:` is false for None
      | some argList =>
        match processArgs argList label s with
        | .error e => .error e
        | .ok s =>
          match argList with
          | [arg] =>   -- `if len(args) == 1:`
            -- the three `if is_*(args[0]):` appends target three distinct
            -- relations, so their sequential composition is one update
            let s := { s with edb := { s.edb with
              call_arg_deref := s.edb.call_arg_deref ++
                (match is_deref arg with
                 | some v => [(name, v, label)]
                 | none => []),
              call_arg_var := s.edb.call_arg_var ++
                (match is_var arg with
                 | some v => [(name, v, label)]
                 | none => []),
              call_arg_const := s.edb.call_arg_const ++
                (match is_const arg with
                 | some v => [(name, v, label)]
                 | none => []) } }
            .ok ((label, [label]), s)
          | _ => .ok ((label, [label]), s)
  | .ifStmt none _ _, _ =>
      .error (.unsupported "empty condition")
  | .ifStmt (some cond) none none, s =>
      -- visit_If with both branches absent: the condition block is still
      -- allocated and its reads recorded before the check fires.
      let (cond_label, s) := _add_elementary_block s
      let s := { s with edb := { s.edb with condition := s.edb.condition ++ [cond_label] } }
      match _process_expr (some cond) s with
      | .error e => .error e
      | .ok (_, _) => .error (.unsupported "if without branches")
  | .ifStmt (some cond) (some iftrue) none, s =>
      let (cond_label, s) := _add_elementary_block s
      let s := { s with edb := { s.edb with condition := s.edb.condition ++ [cond_label] } }
      match _process_expr (some cond) s with
      | .error e => .error e
      | .ok ((cond_vars, cond_deref_vars), s) =>
        let s := _add_used cond_vars cond_deref_vars cond_label s
        match visit iftrue s with
        | .error e => .error e
        | .ok ((iftrue_init, iftrue_finals), s) =>
          let s := _add_arc cond_label iftrue_init (some "true") s
          -- absent false branch: the condition block becomes an open exit
          .ok ((cond_label, iftrue_finals ++ [cond_label]), s)
  | .ifStmt (some cond) none (some iffalse), s =>
      let (cond_label, s) := _add_elementary_block s
      let s := { s with edb := { s.edb with condition := s.edb.condition ++ [cond_label] } }
      match _process_expr (some cond) s with
      | .error e => .error e
      | .ok ((cond_vars, cond_deref_vars), s) =>
        let s := _add_used cond_vars cond_deref_vars cond_label s
        match visit iffalse s with
        | .error e => .error e
        | .ok ((iffalse_init, iffalse_finals), s) =>
          let s := _add_arc cond_label iffalse_init (some "false") s
          .ok ((cond_label, [cond_label] ++ iffalse_finals), s)
  | .ifStmt (some cond) (some iftrue) (some iffalse), s =>
      let (cond_label, s) := _add_elementary_block s
      let s := { s with edb := { s.edb with condition := s.edb.condition ++ [cond_label] } }
      match _process_expr (some cond) s with
      | .error e => .error e
      | .ok ((cond_vars, cond_deref_vars), s) =>
        let s := _add_used cond_vars cond_deref_vars cond_label s
        match visit iftrue s with
        | .error e => .error e
        | .ok ((iftrue_init, iftrue_finals), s) =>
          let s := _add_arc cond_label iftrue_init (some "true") s
          match visit iffalse s with
          | .error e => .error e
          | .ok ((iffalse_init, iffalse_finals), s) =>
            let s := _add_arc cond_label iffalse_init (some "false") s
            .ok ((cond_label, iftrue_finals ++ iffalse_finals), s)
  | .whileStmt none _, _ =>
      .error (.unsupported "empty condition")
  | .whileStmt (some cond) none, s =>
      -- visit_While with `n.stmt is None`: no body, no arcs
      let (cond_label, s) := _add_elementary_block s
      let s := { s with edb := { s.edb with condition := s.edb.condition ++ [cond_label] } }
      match _process_expr (some cond) s with
      | .error e => .error e
      | .ok ((cond_vars, cond_deref_vars), s) =>
        let s := _add_used cond_vars cond_deref_vars cond_label s
        .ok ((cond_label, [cond_label]), s)
  | .whileStmt (some cond) (some stmt), s =>
      let (cond_label, s) := _add_elementary_block s
      let s := { s with edb := { s.edb with condition := s.edb.condition ++ [cond_label] } }
      match _process_expr (some cond) s with
      | .error e => .error e
      | .ok ((cond_vars, cond_deref_vars), s) =>
        let s := _add_used cond_vars cond_deref_vars cond_label s
        match visit stmt s with
        | .error e => .error e
        | .ok ((body_init, body_finals), s) =>
          let s := _add_arc cond_label body_init (some "true") s
          let s := _add_arcs body_finals cond_label s
          .ok ((cond_label, [cond_label]), s)
  | .ret expr, s =>
      -- visit_Return
      let (label, s) := _add_elementary_block s
      match _process_expr expr s with
      | .error e => .error e
      | .ok ((expr_vars, expr_deref_vars), s) =>
        let s := _add_used expr_vars expr_deref_vars label s
        let s := { s with edb := { s.edb with «return» := s.edb.«return» ++ [label] } }
        .ok ((label, []), s)
  | .compound none, _ =>
      -- `head, *tail = None` raises TypeError
      .error (.pythonError "TypeError")
  | .compound (some []), _ =>
      -- `head, *tail = []` raises ValueError
      .error (.pythonError "ValueError")
  | .compound (some (head :: tail)), s =>
      -- visit_Compound
      match visit head s with
      | .error e => .error e
      | .ok ((head_init, head_finals), s) =>
        match visitSeq tail head_finals s with
        | .error e => .error e
        | .ok (prev_finals, s) => .ok ((head_init, prev_finals), s)
  | .otherStmt kind, _ =>
      .error (.unsupported kind)

/-- The `for stmt in tail` loop of `visit_Compound`: visit the statement,
connect every open exit of the previous fragment to its entry, and carry its
open exits forward. -/
def visitSeq : List CStmt → List String → BuildState →
    Except BuildError (List String × BuildState)
  | [], prev_finals, s => .ok (prev_finals, s)
  | stmt :: rest, prev_finals, s =>
      match visit stmt s with
      | .error e => .error e
      | .ok ((cur_init, cur_finals), s) =>
          visitSeq rest cur_finals (_add_arcs prev_finals cur_init s)

end

/-- `visit_FuncDef`: the code *asserts* `n.decl.name == 'main'` — a failed
assert is an `AssertionError`, not `UnsupportedLanguageConstruct` — and then
visits the body. -/
def visit_FuncDef (name : String) (body : CStmt) (s : BuildState) :
    Except BuildError ((String × List String) × BuildState) :=
  if name = "main" then visit body s else .error .assertionError

/-- `visit_FileAST`: empty file and more-than-one element are rejected with
`UnsupportedLanguageConstruct`; a single `FuncDef` is visited.  The final
`raise UnsupportedLanguageConstruct(node.__class__.__name__)` references
`node`, a variable not in scope in this method (its parameter is `n`), so
Python actually raises `NameError: name 'node' is not defined` there. -/
def visit_FileAST (n : FileAST) (s : BuildState) :
    Except BuildError ((String × List String) × BuildState) :=
  if n.ext.length = 0 then .error (.unsupported "empty file")
  else if n.ext.length > 1 then .error (.unsupported "more than one top-level element")
  else match n.ext with
    | [CTopLevel.funcDef name body] => visit_FuncDef name body s
    | _ => .error (.nameError "node")

/-- `generate_cfg`: run a fresh `StatementVisitor` over the AST, then set
`init` to the fragment's entry and `final` to `list(set([*finals, *returns]))`.
Python's set-iteration order is unspecified; the model takes the
order-canonical `dedup` of the concatenation (the same set of labels).  The
graphviz object in the Python return pair is external rendering state and is
not modelled; the function returns the EDB. -/
def generate_cfg (ast : FileAST) : Except BuildError EDB :=
  match visit_FileAST ast initState with
  | .error e => .error e
  | .ok ((init, finals), v) =>
      .ok { v.edb with
              init := [init],
              final := (finals ++ v.edb.«return»).dedup }

/-! ## Fact-file serialization (`write_relations` / `load_relations`)

`write_relations` writes each relation to `<name>.facts` through
`csv.writer(file, delimiter='\t')`: one tuple per line, fields joined by
tabs, rows terminated with `"\r\n"`; a relation whose tuples are bare strings
is first normalized to 1-tuples (`writer.writerow((tuple,))`).
`load_relations` reads the file back through `csv.reader` with the same
delimiter; Python's text mode translates `"\r\n"` to `"\n"` on the way in.
For fields that contain neither the delimiter, the quote character, nor a
newline, `QUOTE_MINIMAL` writes every field verbatim, which is what this
model implements; the round-trip theorem assumes such fields. -/

/-- One serialized row: the tuple's fields joined by the tab delimiter. -/
def encodeRow (row : List String) : List Char :=
  List.intercalate ['\t'] (row.map String.toList)

/-- `write_relations`, one relation file: every row followed by `"\r\n"`. -/
def write_relation_file (rows : List (List String)) : List Char :=
  (rows.map (fun r => encodeRow r ++ ['\r', '\n'])).flatten

/-- Python text-mode reading: universal-newline translation of `"\r\n"`. -/
def textRead : List Char → List Char
  | [] => []
  | '\r' :: '\n' :: rest => '\n' :: textRead rest
  | c :: rest => c :: textRead rest

/-- Split a character list at every occurrence of `c` (the pieces do not
contain `c`; n separators yield n+1 pieces). -/
def splitOnChar (c : Char) : List Char → List (List Char)
  | [] => [[]]
  | x :: xs =>
    match splitOnChar c xs with
    | [] => [[]]
    | g :: gs => if x = c then [] :: g :: gs else (x :: g) :: gs

/-- `load_relations`, one relation file: `csv.reader` yields one field list
per line; the residue after the final newline is not a line. -/
def load_relation_file (cs : List Char) : List (List String) :=
  let chunks := splitOnChar '\n' cs
  let lines := if chunks.getLast? = some [] then chunks.dropLast else chunks
  lines.map (fun l => (splitOnChar '\t' l).map (fun f => String.mk f))

/-- A field within which `QUOTE_MINIMAL` csv output is verbatim: non-empty
and free of the tab delimiter, newlines and the quote character.  Every
field the builder emits except quoted C string literals is of this form. -/
def plainField (f : String) : Prop :=
  f ≠ "" ∧ ∀ c ∈ f.toList, c ≠ '\t' ∧ c ≠ '\n' ∧ c ≠ '\r' ∧ c ≠ '"'

instance (f : String) : Decidable (plainField f) := by
  unfold plainField; infer_instance

/-! ## Derived notions used by the verified properties -/

/-- Clean-room decimal rendering of a natural number (used to reason about
`Nat.repr`, which core implements with a fuel-driven accumulator). -/
def toDigitsAux (n : Nat) : List Char :=
  if h : n / 10 = 0 then [Nat.digitChar (n % 10)]
  else toDigitsAux (n / 10) ++ [Nat.digitChar (n % 10)]
decreasing_by
  exact Nat.div_lt_self (Nat.pos_of_ne_zero (fun hn => h (by simp [hn]))) (by omega)

/-- Decimal value of a digit string (most significant first). -/
def digitsVal : List Char → Nat
  | [] => 0
  | c :: cs => (c.toNat - 48) * 10 ^ cs.length + digitsVal cs

/-- The labels allocated while the counter stands at `c`: `l1 … l(c-1)`. -/
def labelList (c : Nat) : List String := (List.range' 1 (c - 1)).map mkLabel

/-- Every label-typed field across the EDB, over all relations other than
`label` itself (`variable` and `function` hold names, not labels). -/
def labelRefs (edb : EDB) : List String :=
  edb.flow.map Prod.fst ++ edb.flow.map Prod.snd ++
  edb.assignment ++ edb.condition ++ edb.«return» ++
  edb.call.map Prod.snd ++
  edb.used.map Prod.snd ++ edb.used_deref.map Prod.snd ++
  edb.defined.map Prod.snd ++ edb.defined_deref.map Prod.snd ++
  edb.rhs_var.map Prod.snd ++ edb.rhs_const.map Prod.snd ++
  edb.rhs_deref.map Prod.snd ++ edb.rhs_address.map Prod.snd ++
  edb.call_arg_var.map (fun t => t.2.2) ++
  edb.call_arg_const.map (fun t => t.2.2) ++
  edb.call_arg_deref.map (fun t => t.2.2) ++
  edb.init ++ edb.final

/-- Relation-by-relation form of "every referenced label is in `label`". -/
def labelClosed (edb : EDB) : Prop :=
  (∀ p ∈ edb.flow, p.1 ∈ edb.label ∧ p.2 ∈ edb.label) ∧
  (∀ l ∈ edb.assignment, l ∈ edb.label) ∧
  (∀ l ∈ edb.condition, l ∈ edb.label) ∧
  (∀ l ∈ edb.«return», l ∈ edb.label) ∧
  (∀ p ∈ edb.call, p.2 ∈ edb.label) ∧
  (∀ p ∈ edb.used, p.2 ∈ edb.label) ∧
  (∀ p ∈ edb.used_deref, p.2 ∈ edb.label) ∧
  (∀ p ∈ edb.defined, p.2 ∈ edb.label) ∧
  (∀ p ∈ edb.defined_deref, p.2 ∈ edb.label) ∧
  (∀ p ∈ edb.rhs_var, p.2 ∈ edb.label) ∧
  (∀ p ∈ edb.rhs_const, p.2 ∈ edb.label) ∧
  (∀ p ∈ edb.rhs_deref, p.2 ∈ edb.label) ∧
  (∀ p ∈ edb.rhs_address, p.2 ∈ edb.label) ∧
  (∀ t ∈ edb.call_arg_var, t.2.2 ∈ edb.label) ∧
  (∀ t ∈ edb.call_arg_const, t.2.2 ∈ edb.label) ∧
  (∀ t ∈ edb.call_arg_deref, t.2.2 ∈ edb.label) ∧
  (∀ l ∈ edb.init, l ∈ edb.label) ∧
  (∀ l ∈ edb.final, l ∈ edb.label)

/-- Does a binary relation contain a tuple whose label column is `lab`? -/
def hasLab (R : List (String × String)) (lab : String) : Bool :=
  R.any (fun p => p.2 = lab)

/-- Does a ternary relation contain a tuple whose label column is `lab`? -/
def hasLab3 (R : List (String × String × String)) (lab : String) : Bool :=
  R.any (fun t => t.2.2 = lab)

/-- Shape exclusivity for assignments: for any label, at most one of the four
`rhs_*` relations contains a tuple with that label. -/
def RhsExcl (edb : EDB) : Prop := ∀ lab : String,
  (hasLab edb.rhs_var lab).toNat + (hasLab edb.rhs_const lab).toNat +
  (hasLab edb.rhs_deref lab).toNat + (hasLab edb.rhs_address lab).toNat ≤ 1

/-- Shape exclusivity for single-argument calls: for any label, at most one
of the three `call_arg_*` relations contains a tuple with that label. -/
def CallArgExcl (edb : EDB) : Prop := ∀ lab : String,
  (hasLab3 edb.call_arg_var lab).toNat + (hasLab3 edb.call_arg_const lab).toNat +
  (hasLab3 edb.call_arg_deref lab).toNat ≤ 1

/-- The build-state invariant maintained by the traversal. -/
structure Inv (s : BuildState) : Prop where
  counter_pos : 1 ≤ s._availabe_label_index
  label_eq : s.edb.label = labelList s._availabe_label_index
  refs_closed : labelClosed s.edb
  rhs_excl : RhsExcl s.edb
  call_arg_excl : CallArgExcl s.edb
  ret_no_out : ∀ l ∈ s.edb.«return», ∀ d, (l, d) ∉ s.edb.flow
  call_fn : ∀ p ∈ s.edb.call, p.1 ∈ s.edb.function

/-- What one successful `visit` guarantees, on top of preserving `Inv`:
the counter only grows, the fragment's entry and open exits are allocated
labels, no open exit is a return label, and `return` grows only by labels
that did not exist before the visit. -/
structure Post (s s' : BuildState) (frag : String × List String) : Prop where
  inv' : Inv s'
  cnt_le : s._availabe_label_index ≤ s'._availabe_label_index
  init_mem : frag.1 ∈ s'.edb.label
  finals_mem : ∀ l ∈ frag.2, l ∈ s'.edb.label
  finals_not_ret : ∀ l ∈ frag.2, l ∉ s'.edb.«return»
  ret_growth : ∃ Δ, s'.edb.«return» = s.edb.«return» ++ Δ ∧ ∀ l ∈ Δ, l ∉ s.edb.label

/-- The analogue of `Post` for the sequencing loop `visitSeq`. -/
structure PostSeq (s s' : BuildState) (finals : List String) : Prop where
  inv' : Inv s'
  cnt_le : s._availabe_label_index ≤ s'._availabe_label_index
  finals_mem : ∀ l ∈ finals, l ∈ s'.edb.label
  finals_not_ret : ∀ l ∈ finals, l ∉ s'.edb.«return»
  ret_growth : ∃ Δ, s'.edb.«return» = s.edb.«return» ++ Δ ∧ ∀ l ∈ Δ, l ∉ s.edb.label

/-! ## Concrete programs used as witnesses and counterexamples -/

/-- `main(){ return 0; }` (the spec's Scenario A). -/
def progA : FileAST :=
  ⟨[.funcDef "main" (.compound (some [.ret (some (.constant "0"))]))]⟩

/-- `main(){ x = 1; return x; }` (the spec's Scenario B). -/
def progB : FileAST :=
  ⟨[.funcDef "main" (.compound (some [
    .assignment (.id "x") (.constant "1"),
    .ret (some (.id "x"))]))]⟩

/-- `main(){ if (x) { y = 1; } }`: an `if` with no `else` as the last
statement, leaving the condition label an open exit. -/
def progIf : FileAST :=
  ⟨[.funcDef "main" (.compound (some [
    .ifStmt (some (.id "x"))
      (some (.compound (some [.assignment (.id "y") (.constant "1")]))) none]))]⟩

/-- `main(){ f(x); return 0; }`: a one-argument call. -/
def progCallVar : FileAST :=
  ⟨[.funcDef "main" (.compound (some [
    .funcCall "f" (some [.id "x"]),
    .ret (some (.constant "0"))]))]⟩

/-- `main(){ f(x + y); return 0; }`: a call whose sole argument is a
compound expression matching none of the three recognized shapes. -/
def progCallCompound : FileAST :=
  ⟨[.funcDef "main" (.compound (some [
    .funcCall "f" (some [.binaryOp "+" (.id "x") (.id "y")]),
    .ret (some (.constant "0"))]))]⟩

/-- A file whose single top-level element is not a function definition
(e.g. a bare declaration). -/
def fileDeclOnly : FileAST := ⟨[.otherTop "Decl"]⟩

/-- A file whose single function is not named `main`. -/
def fileWrongName : FileAST :=
  ⟨[.funcDef "foo" (.compound (some [.ret (some (.constant "0"))]))]⟩

/-- The empty file. -/
def fileEmpty : FileAST := ⟨[]⟩

/-- A file with two top-level elements. -/
def fileTwoTop : FileAST :=
  ⟨[.funcDef "main" (.compound (some [.ret (some (.constant "0"))])), .otherTop "Decl"]⟩

/-! ## Labels are pairwise distinct: `"l" + str(i)` is injective -/

theorem digitsVal_append (xs : List Char) (c : Char) :
    digitsVal (xs ++ [c]) = digitsVal xs * 10 + (c.toNat - 48) := by
  induction xs with
  | nil => simp [digitsVal]
  | cons x xs ih =>
      have hlen : (xs ++ [c]).length = xs.length + 1 := by simp
      simp only [List.cons_append, digitsVal, List.append_eq, ih, hlen, pow_succ]
      ring

theorem digitChar_decode (d : Nat) (hd : d < 10) :
    (Nat.digitChar d).toNat - 48 = d := by
  interval_cases d <;> rfl

theorem digitsVal_toDigitsAux (n : Nat) : digitsVal (toDigitsAux n) = n := by
  induction n using Nat.strong_induction_on with
  | _ n ih =>
    rw [toDigitsAux]
    by_cases h : n / 10 = 0
    · have hn : n % 10 = n := by omega
      simp [h, digitsVal, hn, digitChar_decode n (by omega)]
    · have hlt : n / 10 < n := Nat.div_lt_self (by omega) (by omega)
      rw [dif_neg h, digitsVal_append, ih (n / 10) hlt,
        digitChar_decode (n % 10) (by omega)]
      omega

theorem toDigitsAux_inj {m n : Nat} (h : toDigitsAux m = toDigitsAux n) : m = n := by
  rw [← digitsVal_toDigitsAux m, h, digitsVal_toDigitsAux]

theorem toDigitsCore_eq_toDigitsAux (fuel : Nat) :
    ∀ (n : Nat) (ds : List Char), n < fuel →
      Nat.toDigitsCore 10 fuel n ds = toDigitsAux n ++ ds := by
  induction fuel with
  | zero => omega
  | succ fuel ih =>
    intro n ds h
    rw [Nat.toDigitsCore]
    by_cases h10 : n / 10 = 0
    · rw [if_pos h10, toDigitsAux, dif_pos h10]
      simp
    · have h1 : 0 < n := by
        rcases Nat.eq_zero_or_pos n with h0 | h0
        · exact absurd (by simp [h0]) h10
        · exact h0
      have hdiv : n / 10 < n := Nat.div_lt_self h1 (by omega)
      have hlt : n / 10 < fuel := by omega
      rw [if_neg h10, ih (n / 10) _ hlt]
      conv_rhs => rw [toDigitsAux]
      rw [dif_neg h10]
      simp

theorem Nat_repr_inj {m n : Nat} (h : Nat.repr m = Nat.repr n) : m = n := by
  have hd : Nat.toDigits 10 m = Nat.toDigits 10 n := by
    have := congrArg String.data h
    simpa [Nat.repr, List.asString] using this
  rw [Nat.toDigits, Nat.toDigits,
    toDigitsCore_eq_toDigitsAux _ _ _ (by omega),
    toDigitsCore_eq_toDigitsAux _ _ _ (by omega)] at hd
  exact toDigitsAux_inj (by simpa using hd)

theorem mkLabel_inj {i j : Nat} (h : mkLabel i = mkLabel j) : i = j := by
  unfold mkLabel at h
  have hdata := congrArg String.data h
  simp only [String.data_append] at hdata
  have : (Nat.repr i).data = (Nat.repr j).data :=
    List.append_cancel_left hdata
  exact Nat_repr_inj (String.ext this)

/-! ## `labelList` toolkit -/

theorem labelList_succ {c : Nat} (hc : 1 ≤ c) :
    labelList (c + 1) = labelList c ++ [mkLabel c] := by
  unfold labelList
  have h1 : c + 1 - 1 = (c - 1) + 1 := by omega
  rw [h1, List.range'_concat, List.map_append]
  have h2 : 1 + (c - 1) = c := by omega
  simp [h2]

theorem mem_labelList {l : String} {c : Nat} :
    l ∈ labelList c ↔ ∃ i, 1 ≤ i ∧ i < c ∧ l = mkLabel i := by
  unfold labelList
  simp only [List.mem_map, List.mem_range'_1]
  constructor
  · rintro ⟨i, ⟨hi1, hi2⟩, rfl⟩
    exact ⟨i, hi1, by omega, rfl⟩
  · rintro ⟨i, hi1, hi2, rfl⟩
    exact ⟨i, ⟨hi1, by omega⟩, rfl⟩

theorem mkLabel_not_mem_labelList {k c : Nat} (h : c ≤ k) :
    mkLabel k ∉ labelList c := by
  rw [mem_labelList]
  rintro ⟨i, h1, h2, heq⟩
  have := mkLabel_inj heq
  omega

theorem labelList_nodup (c : Nat) : (labelList c).Nodup := by
  unfold labelList
  exact (List.nodup_range' 1 (c - 1)).map (fun a b hab => mkLabel_inj hab)

theorem labelList_sub {c c' : Nat} (h : c ≤ c') :
    ∀ l ∈ labelList c, l ∈ labelList c' := by
  intro l hl
  rw [mem_labelList] at hl ⊢
  obtain ⟨i, h1, h2, rfl⟩ := hl
  exact ⟨i, h1, by omega, rfl⟩

/-! ## Shape classifiers are mutually exclusive -/

theorem shape_cases (e : CExpr) :
    (is_deref e = none ∧ is_address e = none ∧ is_var e = none ∧ is_const e = none) ∨
    (∃ v, is_deref e = some v ∧ is_address e = none ∧ is_var e = none ∧ is_const e = none) ∨
    (∃ v, is_deref e = none ∧ is_address e = some v ∧ is_var e = none ∧ is_const e = none) ∨
    (∃ v, is_deref e = none ∧ is_address e = none ∧ is_var e = some v ∧ is_const e = none) ∨
    (∃ v, is_deref e = none ∧ is_address e = none ∧ is_var e = none ∧ is_const e = some v) := by
  cases e with
  | constant v => right; right; right; right; exact ⟨v, rfl, rfl, rfl, rfl⟩
  | id v => right; right; right; left; exact ⟨v, rfl, rfl, rfl, rfl⟩
  | binaryOp op l r => left; exact ⟨rfl, rfl, rfl, rfl⟩
  | otherExpr k => left; exact ⟨rfl, rfl, rfl, rfl⟩
  | unaryOp op expr =>
    match expr with
    | .constant v => left; exact ⟨rfl, rfl, rfl, rfl⟩
    | .unaryOp o e => left; exact ⟨rfl, rfl, rfl, rfl⟩
    | .binaryOp o l r => left; exact ⟨rfl, rfl, rfl, rfl⟩
    | .otherExpr k => left; exact ⟨rfl, rfl, rfl, rfl⟩
    | .id name =>
      by_cases h1 : op = "*"
      · subst h1
        right; left
        exact ⟨name, by simp [is_deref], by simp [is_address], rfl, rfl⟩
      · by_cases h2 : op = "&"
        · subst h2
          right; right; left
          exact ⟨name, by simp [is_deref], by simp [is_address], rfl, rfl⟩
        · left
          exact ⟨by simp [is_deref, h1], by simp [is_address, h2], rfl, rfl⟩

/-! ## Characterizations of the small helpers -/

theorem _process_expr_ok {n : Option CExpr} {s : BuildState}
    {vd : Finset String × Finset String} {s' : BuildState}
    (h : _process_expr n s = .ok (vd, s')) :
    ExpressionVisitor.visitOpt n = .ok vd ∧
    s' = { s with edb := { s.edb with
            «variable» := addVariables (setList vd.1 ++ setList vd.2) s.edb.«variable» } } := by
  cases hv : ExpressionVisitor.visitOpt n with
  | error e =>
      simp only [_process_expr, hv] at h
      exact (Except.noConfusion h)
  | ok vd' =>
      obtain ⟨v, d⟩ := vd'
      simp only [_process_expr, hv, Except.ok.injEq, Prod.mk.injEq] at h
      obtain ⟨h1, h2⟩ := h
      subst h1
      exact ⟨rfl, h2.symm⟩

theorem processArgs_unchanged (args : List CExpr) (label : String) :
    ∀ s s', processArgs args label s = .ok s' →
      s'._availabe_label_index = s._availabe_label_index ∧
      s'.edb.flow = s.edb.flow ∧
      s'.edb.label = s.edb.label ∧
      s'.edb.assignment = s.edb.assignment ∧
      s'.edb.condition = s.edb.condition ∧
      s'.edb.«return» = s.edb.«return» ∧
      s'.edb.call = s.edb.call ∧
      s'.edb.function = s.edb.function ∧
      s'.edb.defined = s.edb.defined ∧
      s'.edb.defined_deref = s.edb.defined_deref ∧
      s'.edb.rhs_var = s.edb.rhs_var ∧
      s'.edb.rhs_const = s.edb.rhs_const ∧
      s'.edb.rhs_deref = s.edb.rhs_deref ∧
      s'.edb.rhs_address = s.edb.rhs_address ∧
      s'.edb.call_arg_var = s.edb.call_arg_var ∧
      s'.edb.call_arg_const = s.edb.call_arg_const ∧
      s'.edb.call_arg_deref = s.edb.call_arg_deref ∧
      s'.edb.init = s.edb.init ∧
      s'.edb.final = s.edb.final ∧
      (∃ du, s'.edb.used = s.edb.used ++ du ∧ ∀ p ∈ du, p.2 = label) ∧
      (∃ dud, s'.edb.used_deref = s.edb.used_deref ++ dud ∧
        ∀ p ∈ dud, p.2 = label) := by
  induction args with
  | nil =>
      intro s s' h
      simp only [processArgs, Except.ok.injEq] at h
      subst h
      exact ⟨rfl, rfl, rfl, rfl, rfl, rfl, rfl, rfl, rfl, rfl, rfl, rfl, rfl,
        rfl, rfl, rfl, rfl, rfl, rfl,
        ⟨[], by simp, by simp⟩, ⟨[], by simp, by simp⟩⟩
  | cons a rest ih =>
      intro s s' h
      rw [processArgs] at h
      cases hp : _process_expr (some a) s with
      | error e => rw [hp] at h; exact absurd h (by simp)
      | ok r =>
          obtain ⟨⟨av, ad⟩, s₁⟩ := r
          rw [hp] at h
          simp only at h
          obtain ⟨-, hs₁⟩ := _process_expr_ok hp
          subst hs₁
          have hrec := ih _ _ h
          simp only [_add_used] at hrec
          obtain ⟨h1, h2, h3, h4, h5, h6, h7, h8, h9, h10, h11, h12, h13, h14,
            h15, h16, h17, h18, h19, ⟨du, hdu, hdu2⟩, ⟨dud, hdud, hdud2⟩⟩ := hrec
          refine ⟨h1, h2, h3, h4, h5, h6, h7, h8, h9, h10, h11, h12, h13, h14,
            h15, h16, h17, h18, h19,
            ⟨(setList (av ∪ ad)).map (fun v => (v, label)) ++ du, ?_, ?_⟩,
            ⟨(setList ad).map (fun v => (v, label)) ++ dud, ?_, ?_⟩⟩
          · simpa [List.append_assoc] using hdu
          · intro p hp'
            rcases List.mem_append.mp hp' with hp' | hp'
            · obtain ⟨v, -, rfl⟩ := List.mem_map.mp hp'
              rfl
            · exact hdu2 p hp'
          · simpa [List.append_assoc] using hdud
          · intro p hp'
            rcases List.mem_append.mp hp' with hp' | hp'
            · obtain ⟨v, -, rfl⟩ := List.mem_map.mp hp'
              rfl
            · exact hdud2 p hp'

/-- Full characterization of a successful `visit_FuncCall`: the fragment, the
label/function/call bookkeeping, the untouched relations, the `used` growth
from the argument scan, and the `call_arg_*` tags (single-argument calls
only). -/
theorem visit_funcCall_ok {name : String} {args : Option (List CExpr)}
    {s : BuildState} {frag : String × List String} {s' : BuildState}
    (h : visit (.funcCall name args) s = .ok (frag, s')) :
    frag = (mkLabel s._availabe_label_index, [mkLabel s._availabe_label_index]) ∧
    s'._availabe_label_index = s._availabe_label_index + 1 ∧
    s'.edb.label = s.edb.label ++ [mkLabel s._availabe_label_index] ∧
    s'.edb.call = s.edb.call ++ [(name, mkLabel s._availabe_label_index)] ∧
    (s'.edb.function = s.edb.function ∨
      s'.edb.function = s.edb.function ++ [name]) ∧
    name ∈ s'.edb.function ∧
    s'.edb.flow = s.edb.flow ∧
    s'.edb.assignment = s.edb.assignment ∧
    s'.edb.condition = s.edb.condition ∧
    s'.edb.«return» = s.edb.«return» ∧
    s'.edb.defined = s.edb.defined ∧
    s'.edb.defined_deref = s.edb.defined_deref ∧
    s'.edb.rhs_var = s.edb.rhs_var ∧
    s'.edb.rhs_const = s.edb.rhs_const ∧
    s'.edb.rhs_deref = s.edb.rhs_deref ∧
    s'.edb.rhs_address = s.edb.rhs_address ∧
    s'.edb.init = s.edb.init ∧
    s'.edb.final = s.edb.final ∧
    (∃ du, s'.edb.used = s.edb.used ++ du ∧
      ∀ p ∈ du, p.2 = mkLabel s._availabe_label_index) ∧
    (∃ dud, s'.edb.used_deref = s.edb.used_deref ++ dud ∧
      ∀ p ∈ dud, p.2 = mkLabel s._availabe_label_index) ∧
    ((∃ arg, args = some [arg] ∧
        s'.edb.call_arg_deref = s.edb.call_arg_deref ++
          (match is_deref arg with
           | some v => [(name, v, mkLabel s._availabe_label_index)]
           | none => []) ∧
        s'.edb.call_arg_var = s.edb.call_arg_var ++
          (match is_var arg with
           | some v => [(name, v, mkLabel s._availabe_label_index)]
           | none => []) ∧
        s'.edb.call_arg_const = s.edb.call_arg_const ++
          (match is_const arg with
           | some v => [(name, v, mkLabel s._availabe_label_index)]
           | none => [])) ∨
     ((¬ ∃ arg, args = some [arg]) ∧
        s'.edb.call_arg_deref = s.edb.call_arg_deref ∧
        s'.edb.call_arg_var = s.edb.call_arg_var ∧
        s'.edb.call_arg_const = s.edb.call_arg_const)) := by
  rw [visit] at h
  simp only [_add_elementary_block, _new_label] at h
  cases args with
  | none =>
      by_cases hf : name ∈ s.edb.function
      · simp only [hf, reduceIte, Except.ok.injEq, Prod.mk.injEq] at h
        obtain ⟨hfrag, hs⟩ := h
        subst hs
        subst hfrag
        refine ⟨rfl, rfl, rfl, rfl, Or.inl rfl, hf, rfl, rfl, rfl, rfl, rfl,
          rfl, rfl, rfl, rfl, rfl, rfl, rfl,
          ⟨[], by simp, by simp⟩, ⟨[], by simp, by simp⟩,
          Or.inr ⟨?_, rfl, rfl, rfl⟩⟩
        rintro ⟨a, ha⟩
        exact Option.noConfusion ha
      · simp only [hf, reduceIte, Except.ok.injEq, Prod.mk.injEq] at h
        obtain ⟨hfrag, hs⟩ := h
        subst hs
        subst hfrag
        refine ⟨rfl, rfl, rfl, rfl, Or.inr rfl, by simp, rfl, rfl, rfl, rfl,
          rfl, rfl, rfl, rfl, rfl, rfl, rfl, rfl,
          ⟨[], by simp, by simp⟩, ⟨[], by simp, by simp⟩,
          Or.inr ⟨?_, rfl, rfl, rfl⟩⟩
        rintro ⟨a, ha⟩
        exact Option.noConfusion ha
  | some argList =>
      by_cases hf : name ∈ s.edb.function <;>
        simp only [hf, reduceIte] at h <;>
        split at h <;>
        rename_i heq
      case pos.h_1 e =>
        exact absurd h (by simp)
      case neg.h_1 e =>
        exact absurd h (by simp)
      all_goals {
        rename_i s₄
        obtain ⟨hc1, hc2, hc3, hc4, hc5, hc6, hc7, hc8, hc9, hc10, hc11, hc12,
          hc13, hc14, hc15, hc16, hc17, hc18, hc19, ⟨du, hdu, hdu2⟩,
          ⟨dud, hdud, hdud2⟩⟩ := processArgs_unchanged _ _ _ _ heq
        rcases argList with _ | ⟨arg, _ | ⟨b, t⟩⟩
        · simp only [Except.ok.injEq, Prod.mk.injEq] at h
          obtain ⟨hfrag, hs⟩ := h
          subst hs
          subst hfrag
          refine ⟨rfl, hc1, hc3, hc7, ?_, ?_, hc2, hc4, hc5, hc6, hc9, hc10,
            hc11, hc12, hc13, hc14, hc18, hc19, ⟨du, hdu, hdu2⟩,
            ⟨dud, hdud, hdud2⟩, Or.inr ⟨?_, hc17, hc15, hc16⟩⟩
          · first | exact Or.inl hc8 | exact Or.inr hc8
          · show name ∈ s₄.edb.function
            rw [hc8]
            first | exact hf | simp
          · rintro ⟨a, ha⟩
            simp at ha
        · simp only [Except.ok.injEq, Prod.mk.injEq] at h
          obtain ⟨hfrag, hs⟩ := h
          subst hs
          subst hfrag
          refine ⟨rfl, hc1, hc3, hc7, ?_, ?_, hc2, hc4, hc5, hc6, hc9, hc10,
            hc11, hc12, hc13, hc14, hc18, hc19, ⟨du, hdu, hdu2⟩,
            ⟨dud, hdud, hdud2⟩, Or.inl ⟨arg, rfl, ?_, ?_, ?_⟩⟩
          · first | exact Or.inl hc8 | exact Or.inr hc8
          · show name ∈ s₄.edb.function
            rw [hc8]
            first | exact hf | simp
          · simp [hc17]
          · simp [hc15]
          · simp [hc16]
        · simp only [Except.ok.injEq, Prod.mk.injEq] at h
          obtain ⟨hfrag, hs⟩ := h
          subst hs
          subst hfrag
          refine ⟨rfl, hc1, hc3, hc7, ?_, ?_, hc2, hc4, hc5, hc6, hc9, hc10,
            hc11, hc12, hc13, hc14, hc18, hc19, ⟨du, hdu, hdu2⟩,
            ⟨dud, hdud, hdud2⟩, Or.inr ⟨?_, hc17, hc15, hc16⟩⟩
          · first | exact Or.inl hc8 | exact Or.inr hc8
          · show name ∈ s₄.edb.function
            rw [hc8]
            first | exact hf | simp
          · rintro ⟨a, ha⟩
            simp at ha
      }

/-- `setList` of a singleton set is the singleton list. -/
theorem setList_singleton (v : String) : setList {v} = [v] :=
  Finset.sort_singleton _ v

/-- Full characterization of a successful `visit_Assignment`. -/
theorem visit_assignment_ok {lv rv : CExpr} {s : BuildState}
    {frag : String × List String} {s' : BuildState}
    (h : visit (.assignment lv rv) s = .ok (frag, s')) :
    ∃ rvars rderefs lvars lderefs : Finset String,
      ExpressionVisitor.visit rv = .ok (rvars, rderefs) ∧
      ExpressionVisitor.visit lv = .ok (lvars, lderefs) ∧
      frag = (mkLabel s._availabe_label_index,
        [mkLabel s._availabe_label_index]) ∧
      s'._availabe_label_index = s._availabe_label_index + 1 ∧
      s'.edb.label = s.edb.label ++ [mkLabel s._availabe_label_index] ∧
      s'.edb.flow = s.edb.flow ∧
      s'.edb.condition = s.edb.condition ∧
      s'.edb.«return» = s.edb.«return» ∧
      s'.edb.call = s.edb.call ∧
      s'.edb.function = s.edb.function ∧
      s'.edb.call_arg_var = s.edb.call_arg_var ∧
      s'.edb.call_arg_const = s.edb.call_arg_const ∧
      s'.edb.call_arg_deref = s.edb.call_arg_deref ∧
      s'.edb.init = s.edb.init ∧
      s'.edb.final = s.edb.final ∧
      s'.edb.assignment = s.edb.assignment ++
        [mkLabel s._availabe_label_index] ∧
      s'.edb.used = s.edb.used ++ (setList (rvars ∪ rderefs)).map
        (fun v => (v, mkLabel s._availabe_label_index)) ∧
      s'.edb.used_deref = s.edb.used_deref ++ (setList rderefs).map
        (fun v => (v, mkLabel s._availabe_label_index)) ∧
      s'.edb.rhs_deref = s.edb.rhs_deref ++
        (match is_deref rv with
         | some v => [(v, mkLabel s._availabe_label_index)]
         | none => []) ∧
      s'.edb.rhs_address = s.edb.rhs_address ++
        (match is_address rv with
         | some v => [(v, mkLabel s._availabe_label_index)]
         | none => []) ∧
      s'.edb.rhs_var = s.edb.rhs_var ++
        (match is_var rv with
         | some v => [(v, mkLabel s._availabe_label_index)]
         | none => []) ∧
      s'.edb.rhs_const = s.edb.rhs_const ++
        (match is_const rv with
         | some v => [(v, mkLabel s._availabe_label_index)]
         | none => []) ∧
      ((lvars.card = 1 ∧ lderefs.card = 0 ∧
          s'.edb.defined = s.edb.defined ++ (setList lvars).map
            (fun v => (v, mkLabel s._availabe_label_index)) ∧
          s'.edb.defined_deref = s.edb.defined_deref) ∨
       (lvars.card = 0 ∧ lderefs.card = 1 ∧
          s'.edb.defined = s.edb.defined ∧
          s'.edb.defined_deref = s.edb.defined_deref ++
            (setList lderefs).map
              (fun v => (v, mkLabel s._availabe_label_index)))) := by
  rw [visit] at h
  simp only [_add_elementary_block, _new_label] at h
  split at h
  · exact absurd h (by simp)
  · rename_i rvars rderefs s₂ heq1
    obtain ⟨hv1, hs₂⟩ := _process_expr_ok heq1
    subst hs₂
    split at h
    · exact absurd h (by simp)
    · rename_i lvars lderefs s₈ heq2
      obtain ⟨hv2, hs₈⟩ := _process_expr_ok heq2
      subst hs₈
      split at h
      · rename_i hcards
        simp only [Except.ok.injEq, Prod.mk.injEq, _add_used] at h
        obtain ⟨hfrag, hs⟩ := h
        subst hs
        subst hfrag
        exact ⟨rvars, rderefs, lvars, lderefs, hv1, hv2, rfl, rfl, rfl, rfl,
          rfl, rfl, rfl, rfl, rfl, rfl, rfl, rfl, rfl, rfl, rfl, rfl, rfl,
          rfl, rfl, rfl, Or.inl ⟨hcards.1, hcards.2, rfl, rfl⟩⟩
      · split at h
        · rename_i hcards
          simp only [Except.ok.injEq, Prod.mk.injEq, _add_used] at h
          obtain ⟨hfrag, hs⟩ := h
          subst hs
          subst hfrag
          exact ⟨rvars, rderefs, lvars, lderefs, hv1, hv2, rfl, rfl, rfl, rfl,
            rfl, rfl, rfl, rfl, rfl, rfl, rfl, rfl, rfl, rfl, rfl, rfl, rfl,
            rfl, rfl, rfl, Or.inr ⟨hcards.1, hcards.2, rfl, rfl⟩⟩
        · exact absurd h (by simp)

/-- Full characterization of a successful `visit_Return`. -/
theorem visit_return_ok {expr : Option CExpr} {s : BuildState}
    {frag : String × List String} {s' : BuildState}
    (h : visit (.ret expr) s = .ok (frag, s')) :
    ∃ evars ederefs : Finset String,
      ExpressionVisitor.visitOpt expr = .ok (evars, ederefs) ∧
      frag = (mkLabel s._availabe_label_index, []) ∧
      s'._availabe_label_index = s._availabe_label_index + 1 ∧
      s'.edb.label = s.edb.label ++ [mkLabel s._availabe_label_index] ∧
      s'.edb.«return» = s.edb.«return» ++ [mkLabel s._availabe_label_index] ∧
      s'.edb.used = s.edb.used ++ (setList (evars ∪ ederefs)).map
        (fun v => (v, mkLabel s._availabe_label_index)) ∧
      s'.edb.used_deref = s.edb.used_deref ++ (setList ederefs).map
        (fun v => (v, mkLabel s._availabe_label_index)) ∧
      s'.edb.flow = s.edb.flow ∧
      s'.edb.assignment = s.edb.assignment ∧
      s'.edb.condition = s.edb.condition ∧
      s'.edb.call = s.edb.call ∧
      s'.edb.function = s.edb.function ∧
      s'.edb.defined = s.edb.defined ∧
      s'.edb.defined_deref = s.edb.defined_deref ∧
      s'.edb.rhs_var = s.edb.rhs_var ∧
      s'.edb.rhs_const = s.edb.rhs_const ∧
      s'.edb.rhs_deref = s.edb.rhs_deref ∧
      s'.edb.rhs_address = s.edb.rhs_address ∧
      s'.edb.call_arg_var = s.edb.call_arg_var ∧
      s'.edb.call_arg_const = s.edb.call_arg_const ∧
      s'.edb.call_arg_deref = s.edb.call_arg_deref ∧
      s'.edb.init = s.edb.init ∧
      s'.edb.final = s.edb.final := by
  rw [visit] at h
  simp only [_add_elementary_block, _new_label] at h
  split at h
  · exact absurd h (by simp)
  · rename_i evars ederefs s₂ heq
    obtain ⟨hv, hs₂⟩ := _process_expr_ok heq
    subst hs₂
    simp only [Except.ok.injEq, Prod.mk.injEq, _add_used] at h
    obtain ⟨hfrag, hs⟩ := h
    subst hs
    subst hfrag
    exact ⟨evars, ederefs, hv, rfl, rfl, rfl, rfl, rfl, rfl, rfl, rfl, rfl,
      rfl, rfl, rfl, rfl, rfl, rfl, rfl, rfl, rfl, rfl, rfl, rfl, rfl⟩

/-! ## Claim theorems -/

/-- **C6.** The recursive read scan treats `&x` as a direct read of `x`:
for every operand expression the scan of `&e` equals the scan of `e`
(the operator is ignored, nothing is added to the dereferenced-read set and
the scan's result — a pair of read sets — contains no address-of tag at
all); in particular `&x` scans to direct-reads `{x}` and empty deref-reads.
The address-of shape tag is produced only by the separate single-shape test
`is_address`, applied to a whole expression. -/
theorem C6_address_of_scan :
    (∀ e : CExpr,
      ExpressionVisitor.visit (.unaryOp "&" e) = ExpressionVisitor.visit e) ∧
    (∀ x : String,
      ExpressionVisitor.visit (.unaryOp "&" (.id x)) = .ok ({x}, ∅)) ∧
    (∀ x : String, is_address (.unaryOp "&" (.id x)) = some x) := by
  have hderef : ∀ e : CExpr, is_deref (.unaryOp "&" e) = none := by
    intro e
    match e with
    | .constant v => rfl
    | .id v => simp [is_deref]
    | .unaryOp o e' => rfl
    | .binaryOp o l r => rfl
    | .otherExpr k => rfl
  refine ⟨fun e => ?_, fun x => ?_, fun x => by simp [is_address]⟩
  · conv_lhs => rw [ExpressionVisitor.visit]
    rw [hderef e]
  · conv_lhs => rw [ExpressionVisitor.visit]
    rw [hderef (.id x)]
    rw [ExpressionVisitor.visit]

/-- **C10.** A bare `return;` carries `None`: `_process_expr` hands `None`
to the `ExpressionVisitor`, whose reflective dispatch hits `generic_visit`
and raises `UnsupportedLanguageConstruct("NoneType")`; a return statement is
accepted only when its expression is handled by the read scan. -/
theorem C10_bare_return_rejected :
    (∀ s : BuildState,
      visit (.ret none) s = .error (.unsupported "NoneType")) ∧
    (∀ (e : CExpr) (s : BuildState) (frag : String × List String)
        (s' : BuildState), visit (.ret (some e)) s = .ok (frag, s') →
      ∃ vd, ExpressionVisitor.visit e = .ok vd) := by
  constructor
  · intro s
    rw [visit]
    simp [_add_elementary_block, _new_label, _process_expr,
      ExpressionVisitor.visitOpt]
  · intro e s frag s' h
    rw [visit] at h
    cases hv : ExpressionVisitor.visit e with
    | error err =>
        simp only [_add_elementary_block, _new_label, _process_expr,
          ExpressionVisitor.visitOpt, hv] at h
        exact (Except.noConfusion h)
    | ok vd => exact ⟨vd, rfl⟩

/-- Witness for `C10_bare_return_rejected` at concrete inputs: the bare
return is rejected from the initial state, and `return x;` — whose
expression the read scan accepts — is indeed accepted. -/
theorem C10_witness :
    visit (.ret none) initState = .error (.unsupported "NoneType") ∧
    (∃ vd, ExpressionVisitor.visit (.id "x") = .ok vd) := by
  constructor
  · exact C10_bare_return_rejected.1 initState
  · exact C10_bare_return_rejected.2 (.id "x") initState _ _ (by rfl)

/-- **C3 (counterexample).** In `main(){ f(x); return 0; }` the `call`
relation holds the pair `("f", "l1")` — the callee name and the label — and
`"f"` is not a label, so `call` tuples do not consist of exactly the label
of the call statement (unlike `assignment`/`return`/`condition`, whose
entries are bare labels). -/
theorem C3_counterexample :
    ∃ edb, generate_cfg progCallVar = Except.ok edb ∧
      ("f", "l1") ∈ edb.call ∧ "f" ∉ edb.label :=
  ⟨_, rfl, by decide⟩

/-- **C3 (amended).** Each tuple the builder appends to the `call` relation
has shape `(function name, label)`: visiting a call statement appends
exactly `(name, label)` for the freshly allocated label. -/
theorem C3_call_tuples_are_pairs (name : String) (args : Option (List CExpr))
    (s : BuildState) (frag : String × List String) (s' : BuildState)
    (h : visit (.funcCall name args) s = .ok (frag, s')) :
    s'.edb.call = s.edb.call ++ [(name, mkLabel s._availabe_label_index)] :=
  (visit_funcCall_ok h).2.2.2.1

/-- Witness for `C3_call_tuples_are_pairs`: the call `f(x)` from the initial
state. -/
theorem C3_witness :
    ∃ frag s', visit (.funcCall "f" (some [.id "x"])) initState
        = .ok (frag, s') ∧
      s'.edb.call = initState.edb.call ++
        [("f", mkLabel initState._availabe_label_index)] :=
  ⟨_, _, rfl, C3_call_tuples_are_pairs "f" (some [.id "x"]) initState _ _ rfl⟩

/-- **C5 (counterexample).** `main(){ f(x + y); return 0; }` has a call with
exactly one argument, yet no `call_arg_*` tuple is recorded: a compound
argument matches none of the three recognized shapes, so "one is always
recorded" fails. -/
theorem C5_counterexample :
    ∃ edb, generate_cfg progCallCompound = Except.ok edb ∧
      ("f", "l1") ∈ edb.call ∧
      edb.call_arg_var = [] ∧ edb.call_arg_const = [] ∧
      edb.call_arg_deref = [] :=
  ⟨_, rfl, by decide⟩

/-- **C5 (amended).** For a call with exactly one argument the builder
records **at most** one `call_arg_*` tuple — exactly one precisely when the
argument matches one of the recognized shapes (variable, constant,
dereference of a variable); calls with zero or several arguments receive no
`call_arg_*` tuples. -/
theorem C5_call_arg_tags (name : String) (args : Option (List CExpr))
    (s : BuildState) (frag : String × List String) (s' : BuildState)
    (h : visit (.funcCall name args) s = .ok (frag, s')) :
    (∀ arg, args = some [arg] →
      s'.edb.call_arg_deref.length + s'.edb.call_arg_var.length +
          s'.edb.call_arg_const.length ≤
        s.edb.call_arg_deref.length + s.edb.call_arg_var.length +
          s.edb.call_arg_const.length + 1 ∧
      (s'.edb.call_arg_deref.length + s'.edb.call_arg_var.length +
          s'.edb.call_arg_const.length =
        s.edb.call_arg_deref.length + s.edb.call_arg_var.length +
          s.edb.call_arg_const.length + 1 ↔
        ((is_deref arg).isSome ∨ (is_var arg).isSome ∨ (is_const arg).isSome))) ∧
    ((∀ arg, args ≠ some [arg]) →
      s'.edb.call_arg_deref = s.edb.call_arg_deref ∧
      s'.edb.call_arg_var = s.edb.call_arg_var ∧
      s'.edb.call_arg_const = s.edb.call_arg_const) := by
  obtain ⟨-, -, -, -, -, -, -, -, -, -, -, -, -, -, -, -, -, -, -, -, htags⟩ :=
    visit_funcCall_ok h
  rcases htags with ⟨arg0, hargs, hd, hv, hc⟩ | ⟨hne, hd, hv, hc⟩
  · constructor
    · intro arg harg
      rw [hargs] at harg
      have harg' : arg0 = arg := by simpa using harg
      rw [← harg', hd, hv, hc]
      rcases shape_cases arg0 with ⟨e1, e2, e3, e4⟩ | ⟨v, e1, e2, e3, e4⟩ |
        ⟨v, e1, e2, e3, e4⟩ | ⟨v, e1, e2, e3, e4⟩ | ⟨v, e1, e2, e3, e4⟩ <;>
        simp [e1, e3, e4] <;> omega
    · intro hall
      exact absurd hargs (hall arg0)
  · constructor
    · intro arg harg
      exact absurd ⟨arg, harg⟩ hne
    · intro _
      exact ⟨hd, hv, hc⟩

/-- Witness for `C5_call_arg_tags`: the single-variable-argument call
`f(x)` from the initial state records exactly one tag. -/
theorem C5_witness :
    ∃ frag s', visit (.funcCall "f" (some [.id "x"])) initState
        = .ok (frag, s') ∧
      (s'.edb.call_arg_deref.length + s'.edb.call_arg_var.length +
          s'.edb.call_arg_const.length =
        initState.edb.call_arg_deref.length +
          initState.edb.call_arg_var.length +
          initState.edb.call_arg_const.length + 1) :=
  ⟨_, _, rfl,
    ((C5_call_arg_tags "f" (some [.id "x"]) initState _ _ rfl).1 (.id "x")
      rfl).2.mpr (Or.inr (Or.inl (by decide)))⟩

/-- **C4.** LHS classification of an assignment, for an assignment whose two
expression scans succeed with read sets `(lvars, lderefs)` for the LHS: a
successful visit records `defined` exactly when the LHS reduces to one
direct-read variable and no dereferenced read, `defined_deref` exactly when
it reduces to one dereferenced-read variable and no direct read (recording
the tuple `(variable, label)` and nothing in the other relation); any other
LHS shape makes the visit fail with `UnsupportedLanguageConstruct`. -/
theorem C4_lhs_classification (lv rv : CExpr) (s : BuildState)
    (rvars rderefs lvars lderefs : Finset String)
    (hr : ExpressionVisitor.visit rv = .ok (rvars, rderefs))
    (hl : ExpressionVisitor.visit lv = .ok (lvars, lderefs)) :
    (∀ frag s', visit (.assignment lv rv) s = .ok (frag, s') →
      ((lvars.card = 1 ∧ lderefs.card = 0 ∧
          ∃ v, lvars = {v} ∧
            s'.edb.defined = s.edb.defined ++
              [(v, mkLabel s._availabe_label_index)] ∧
            s'.edb.defined_deref = s.edb.defined_deref) ∨
       (lvars.card = 0 ∧ lderefs.card = 1 ∧
          ∃ v, lderefs = {v} ∧
            s'.edb.defined_deref = s.edb.defined_deref ++
              [(v, mkLabel s._availabe_label_index)] ∧
            s'.edb.defined = s.edb.defined))) ∧
    (¬(lvars.card = 1 ∧ lderefs.card = 0) →
     ¬(lvars.card = 0 ∧ lderefs.card = 1) →
      visit (.assignment lv rv) s = .error (.unsupported "Assignment")) := by
  constructor
  · intro frag s' h
    obtain ⟨rvars', rderefs', lvars', lderefs', hv1, hv2, -, -, -, -, -, -,
      -, -, -, -, -, -, -, -, -, -, -, -, -, -, hor⟩ := visit_assignment_ok h
    obtain ⟨hlv1, hlv2⟩ : lvars = lvars' ∧ lderefs = lderefs' := by
      rw [hl] at hv2
      simpa using hv2
    rw [← hlv1, ← hlv2] at hor
    rcases hor with ⟨hc1, hc0, hdef, hdd⟩ | ⟨hc0, hc1, hdef, hdd⟩
    · obtain ⟨v, hv⟩ := Finset.card_eq_one.mp hc1
      refine Or.inl ⟨hc1, hc0, v, hv, ?_, hdd⟩
      rw [hdef, hv, setList_singleton]
      rfl
    · obtain ⟨v, hv⟩ := Finset.card_eq_one.mp hc1
      refine Or.inr ⟨hc0, hc1, v, hv, ?_, hdef⟩
      rw [hdd, hv, setList_singleton]
      rfl
  · intro h1 h2
    rw [visit]
    simp only [_add_elementary_block, _new_label, _process_expr,
      ExpressionVisitor.visitOpt, hr, hl]
    rw [if_neg h1, if_neg h2]

/-- Witness for `C4_lhs_classification`: assigning to the constant LHS `5`
(zero direct reads, zero dereferenced reads) is rejected with
`UnsupportedLanguageConstruct`. -/
theorem C4_witness :
    visit (.assignment (.constant "5") (.constant "1")) initState
      = .error (.unsupported "Assignment") :=
  (C4_lhs_classification (.constant "5") (.constant "1") initState
    ∅ ∅ ∅ ∅ rfl rfl).2 (by decide) (by decide)

/-- **C2.** What `visit_FileAST`/`visit_FuncDef` actually raise: the empty
file and the more-than-one-element file do fail with
`UnsupportedLanguageConstruct`, but a single non-function top-level element
hits `raise UnsupportedLanguageConstruct(node.__class__.__name__)` whose
`node` is an undefined variable — a `NameError` — and a function named
anything but `main` fails the bare `assert`, an `AssertionError`.  The
claim's single error kind `UnsupportedConstruct` is therefore not what the
code produces on the last two inputs. -/
theorem C2_program_root_error_kinds :
    visit_FileAST fileEmpty initState = .error (.unsupported "empty file") ∧
    visit_FileAST fileTwoTop initState
      = .error (.unsupported "more than one top-level element") ∧
    visit_FileAST fileDeclOnly initState = .error (.nameError "node") ∧
    visit_FileAST fileWrongName initState = .error .assertionError := by
  exact ⟨rfl, rfl, rfl, rfl⟩

/-! ## C9: the fact-file round trip -/

theorem intercalate_cons_cons (sep a b : List Char) (t : List (List Char)) :
    List.intercalate sep (a :: b :: t) =
      a ++ sep ++ List.intercalate sep (b :: t) := by
  simp [List.intercalate, List.intersperse_cons_cons, List.append_assoc]

theorem splitOnChar_exists (c : Char) (l : List Char) :
    ∃ g gs, splitOnChar c l = g :: gs := by
  induction l with
  | nil => exact ⟨[], [], rfl⟩
  | cons x xs ih =>
      obtain ⟨g, gs, hg⟩ := ih
      rw [splitOnChar, hg]
      by_cases hx : x = c
      · exact ⟨[], g :: gs, by simp [hx]⟩
      · exact ⟨x :: g, gs, by simp [hx]⟩

theorem splitOnChar_not_mem {c : Char} {xs : List Char} (h : c ∉ xs) :
    splitOnChar c xs = [xs] := by
  induction xs with
  | nil => rfl
  | cons x t ih =>
      have hx : x ≠ c := fun hx => h (hx ▸ List.mem_cons_self x t)
      rw [splitOnChar, ih (fun hm => h (List.mem_cons_of_mem x hm))]
      simp [hx]

theorem splitOnChar_append {c : Char} {xs : List Char} (ys : List Char)
    (h : c ∉ xs) :
    splitOnChar c (xs ++ c :: ys) = xs :: splitOnChar c ys := by
  induction xs with
  | nil =>
      obtain ⟨g, gs, hg⟩ := splitOnChar_exists c ys
      rw [List.nil_append, splitOnChar, hg]
      simp
  | cons x t ih =>
      have hx : x ≠ c := fun hx => h (hx ▸ List.mem_cons_self x t)
      rw [List.cons_append, splitOnChar,
        ih (fun hm => h (List.mem_cons_of_mem x hm))]
      simp [hx]

theorem textRead_cons {x : Char} (l : List Char) (hx : x ≠ '\r') :
    textRead (x :: l) = x :: textRead l := by
  rw [textRead.eq_def]
  split
  · rename_i heq
    cases heq
  · rename_i rest heq
    rw [List.cons.injEq] at heq
    exact absurd heq.1 hx
  · rename_i c rest heq
    rw [List.cons.injEq] at heq
    obtain ⟨rfl, rfl⟩ := heq
    rfl

theorem textRead_append {xs : List Char} (rest : List Char)
    (h : '\r' ∉ xs) :
    textRead (xs ++ '\r' :: '\n' :: rest) = xs ++ '\n' :: textRead rest := by
  induction xs with
  | nil => rfl
  | cons x t ih =>
      have hx : x ≠ '\r' := fun hx => h (hx ▸ List.mem_cons_self x t)
      rw [List.cons_append,
        textRead_cons _ hx, ih (fun hm => h (List.mem_cons_of_mem x hm))]
      rfl

theorem encodeRow_not_mem {c : Char} (hc : c ≠ '\t') {r : List String}
    (h : ∀ f ∈ r, c ∉ f.toList) : c ∉ encodeRow r := by
  induction r with
  | nil => simp [encodeRow, List.intercalate]
  | cons f t ih =>
      rcases t with _ | ⟨g, t'⟩
      · simpa [encodeRow, List.intercalate] using h f (by simp)
      · rw [encodeRow]
        simp only [List.map_cons]
        rw [intercalate_cons_cons]
        intro hm
        rcases List.mem_append.mp hm with hm | hm
        · rcases List.mem_append.mp hm with hm | hm
          · exact h f (by simp) hm
          · simp at hm
            exact hc hm
        · exact ih (fun f' hf' => h f' (List.mem_cons_of_mem f hf')) hm

theorem decode_encodeRow {r : List String} (hr : r ≠ [])
    (h : ∀ f ∈ r, '\t' ∉ f.toList) :
    splitOnChar '\t' (encodeRow r) = r.map String.toList := by
  induction r with
  | nil => exact absurd rfl hr
  | cons f t ih =>
      rcases t with _ | ⟨g, t'⟩
      · rw [encodeRow]
        simp only [List.map_cons, List.map_nil]
        rw [show List.intercalate ['\t'] [f.toList] = f.toList by
          simp [List.intercalate]]
        exact splitOnChar_not_mem (h f (by simp))
      · rw [encodeRow]
        simp only [List.map_cons]
        rw [intercalate_cons_cons, List.append_assoc, List.singleton_append,
          splitOnChar_append _ (h f (by simp))]
        congr 1
        have hrec := ih (by simp)
          (fun f' hf' => h f' (List.mem_cons_of_mem f hf'))
        rw [encodeRow] at hrec
        simpa only [List.map_cons] using hrec

theorem string_mk_toList (s : String) : String.mk s.toList = s := rfl

/-- **C9.** Writing a relation's tuples to the tab-separated `.facts` format
(`write_relations`) and reading the file back (`load_relations`, through
Python's universal-newline text mode) returns exactly the same list of
tuples — in particular the same set, order untouched.  The hypothesis
restricts fields to the non-empty, delimiter/quote/newline-free strings for
which `csv`'s `QUOTE_MINIMAL` output is the plain tab-joined form that this
model implements (every field the builder emits except C string literals is
of this form). -/
theorem textRead_write (rows : List (List String))
    (hcr : ∀ r ∈ rows, '\r' ∉ encodeRow r) :
    textRead (write_relation_file rows) =
      (rows.map (fun r => encodeRow r ++ ['\n'])).flatten := by
  revert hcr
  induction rows with
  | nil => intro _; rfl
  | cons r t ih =>
      intro hcr
      rw [write_relation_file, List.map_cons, List.flatten_cons,
        List.append_assoc, List.cons_append, List.cons_append,
        List.nil_append, textRead_append _ (hcr r (by simp))]
      rw [show (t.map (fun r => encodeRow r ++ ['\r', '\n'])).flatten =
            write_relation_file t from rfl,
        ih (fun r' hr' => hcr r' (by simp [hr']))]
      simp

theorem splitOnChar_flatten (rows : List (List String))
    (hnl : ∀ r ∈ rows, '\n' ∉ encodeRow r) :
    splitOnChar '\n' ((rows.map (fun r => encodeRow r ++ ['\n'])).flatten) =
      rows.map encodeRow ++ [[]] := by
  revert hnl
  induction rows with
  | nil => intro _; rfl
  | cons r t ih =>
      intro hnl
      rw [List.map_cons, List.flatten_cons, List.append_assoc,
        List.singleton_append, splitOnChar_append _ (hnl r (by simp))]
      rw [ih (fun r' hr' => hnl r' (by simp [hr']))]
      simp

theorem C9_facts_round_trip (rows : List (List String))
    (h : ∀ r ∈ rows, r ≠ [] ∧ ∀ f ∈ r, plainField f) :
    load_relation_file (textRead (write_relation_file rows)) = rows := by
  have hcr : ∀ r ∈ rows, '\r' ∉ encodeRow r := by
    intro r hr
    refine encodeRow_not_mem (by decide) ?_
    intro f hf hm
    exact (((h r hr).2 f hf).2 '\r' hm).2.2.1 rfl
  have hnl : ∀ r ∈ rows, '\n' ∉ encodeRow r := by
    intro r hr
    refine encodeRow_not_mem (by decide) ?_
    intro f hf hm
    exact (((h r hr).2 f hf).2 '\n' hm).2.1 rfl
  rw [load_relation_file, textRead_write rows hcr,
    splitOnChar_flatten rows hnl]
  simp only [List.getLast?_concat, reduceIte, List.dropLast_concat,
    List.map_map]
  refine List.map_congr_left ?_ |>.trans (List.map_id rows)
  intro r hr
  have hdec := decode_encodeRow (h r hr).1
    (fun f hf hm => (((h r hr).2 f hf).2 '\t' hm).1 rfl)
  simp only [Function.comp]
  rw [hdec, List.map_map]
  exact (List.map_congr_left (fun f _ => rfl)).trans (List.map_id r)

/-- Witness for `C9_facts_round_trip`: the two-relation-row table
`[["l1"], ["x", "l2"]]` survives the round trip unchanged. -/
theorem C9_witness :
    load_relation_file (textRead (write_relation_file [["l1"], ["x", "l2"]]))
      = [["l1"], ["x", "l2"]] :=
  C9_facts_round_trip [["l1"], ["x", "l2"]] (by decide)

/-! ## Invariant machinery -/

theorem fresh_label {s : BuildState} (hInv : Inv s) {k : Nat}
    (hk : s._availabe_label_index ≤ k) : mkLabel k ∉ s.edb.label := by
  rw [hInv.label_eq]
  exact mkLabel_not_mem_labelList hk

theorem mem_label_ne_fresh {s : BuildState} (hInv : Inv s) {k : Nat}
    (hk : s._availabe_label_index ≤ k) {l : String} (hl : l ∈ s.edb.label) :
    l ≠ mkLabel k := by
  intro heq
  exact fresh_label hInv hk (heq ▸ hl)

theorem hasLab_append (R Δ : List (String × String)) (lab : String) :
    hasLab (R ++ Δ) lab = (hasLab R lab || hasLab Δ lab) := by
  simp [hasLab, List.any_append]

theorem hasLab3_append (R Δ : List (String × String × String)) (lab : String) :
    hasLab3 (R ++ Δ) lab = (hasLab3 R lab || hasLab3 Δ lab) := by
  simp [hasLab3, List.any_append]

theorem hasLab_false {R : List (String × String)} {label : List String}
    (hcl : ∀ p ∈ R, p.2 ∈ label) {lab : String} (hlab : lab ∉ label) :
    hasLab R lab = false := by
  simp only [hasLab, List.any_eq_false, decide_eq_true_eq]
  intro p hp heq
  exact hlab (heq ▸ hcl p hp)

theorem hasLab3_false {R : List (String × String × String)}
    {label : List String} (hcl : ∀ t ∈ R, t.2.2 ∈ label) {lab : String}
    (hlab : lab ∉ label) : hasLab3 R lab = false := by
  simp only [hasLab3, List.any_eq_false, decide_eq_true_eq]
  intro t ht heq
  exact hlab (heq ▸ hcl t ht)

theorem hasLab_all_eq {Δ : List (String × String)} {lab lab' : String}
    (h : ∀ p ∈ Δ, p.2 = lab) (hne : lab' ≠ lab) : hasLab Δ lab' = false := by
  simp only [hasLab, List.any_eq_false, decide_eq_true_eq]
  intro p hp heq
  exact hne (heq ▸ h p hp)

theorem hasLab3_all_eq {Δ : List (String × String × String)} {lab lab' : String}
    (h : ∀ t ∈ Δ, t.2.2 = lab) (hne : lab' ≠ lab) : hasLab3 Δ lab' = false := by
  simp only [hasLab3, List.any_eq_false, decide_eq_true_eq]
  intro t ht heq
  exact hne (heq ▸ h t ht)

/-- The list form of label closure follows from the relation-by-relation
form. -/
theorem labelRefs_of_labelClosed {edb : EDB} (h : labelClosed edb) :
    ∀ l ∈ labelRefs edb, l ∈ edb.label := by
  obtain ⟨h1, h2, h3, h4, h5, h6, h7, h8, h9, h10, h11, h12, h13, h14, h15,
    h16, h17, h18⟩ := h
  intro l hl
  simp only [labelRefs, List.mem_append, List.mem_map] at hl
  rcases hl with ((((((((((((((((((hl | hl) | hl) | hl) | hl) | hl) | hl) | hl) | hl) | hl) | hl) | hl) | hl) | hl) | hl) | hl) | hl) | hl) | hl)
  · obtain ⟨p, hp, rfl⟩ := hl
    exact (h1 p hp).1
  · obtain ⟨p, hp, rfl⟩ := hl
    exact (h1 p hp).2
  · exact h2 l hl
  · exact h3 l hl
  · exact h4 l hl
  · obtain ⟨p, hp, rfl⟩ := hl
    exact h5 p hp
  · obtain ⟨p, hp, rfl⟩ := hl
    exact h6 p hp
  · obtain ⟨p, hp, rfl⟩ := hl
    exact h7 p hp
  · obtain ⟨p, hp, rfl⟩ := hl
    exact h8 p hp
  · obtain ⟨p, hp, rfl⟩ := hl
    exact h9 p hp
  · obtain ⟨p, hp, rfl⟩ := hl
    exact h10 p hp
  · obtain ⟨p, hp, rfl⟩ := hl
    exact h11 p hp
  · obtain ⟨p, hp, rfl⟩ := hl
    exact h12 p hp
  · obtain ⟨p, hp, rfl⟩ := hl
    exact h13 p hp
  · obtain ⟨t, ht, rfl⟩ := hl
    exact h14 t ht
  · obtain ⟨t, ht, rfl⟩ := hl
    exact h15 t ht
  · obtain ⟨t, ht, rfl⟩ := hl
    exact h16 t ht
  · exact h17 l hl
  · exact h18 l hl

theorem mem_match_tuple {o : Option String} {lab : String}
    {p : String × String}
    (hp : p ∈ (match o with | some v => [(v, lab)] | none => [])) :
    p.2 = lab := by
  cases o with
  | none => simp at hp
  | some v =>
      simp at hp
      rw [hp]

theorem mem_match_tuple3 {o : Option String} {name lab : String}
    {t : String × String × String}
    (ht : t ∈ (match o with | some v => [(name, v, lab)] | none => [])) :
    t.2.2 = lab := by
  cases o with
  | none => simp at ht
  | some v =>
      simp at ht
      rw [ht]

/-- `Post` for a successful `visit_Return`. -/
theorem return_post {expr : Option CExpr} {s : BuildState}
    {frag : String × List String} {s' : BuildState} (hInv : Inv s)
    (h : visit (.ret expr) s = .ok (frag, s')) : Post s s' frag := by
  obtain ⟨evars, ederefs, hv, hfrag, hcnt, hlabel, hret, hused, hud, hflow,
    hassign, hcond, hcall, hfn, hdef, hdd, hrv, hrc, hrd, hra, hcav, hcac,
    hcad, hinit, hfinal⟩ := visit_return_ok h
  obtain ⟨c1, c2, c3, c4, c5, c6, c7, c8, c9, c10, c11, c12, c13, c14, c15,
    c16, c17, c18⟩ := hInv.refs_closed
  have hc := hInv.counter_pos
  have hfresh : mkLabel s._availabe_label_index ∉ s.edb.label :=
    fresh_label hInv le_rfl
  have hmemnew : mkLabel s._availabe_label_index ∈ s'.edb.label := by
    rw [hlabel]
    simp
  have hmono : ∀ l ∈ s.edb.label, l ∈ s'.edb.label := by
    intro l hl
    rw [hlabel]
    exact List.mem_append_left _ hl
  refine ⟨?_, ?_, ?_, ?_, ?_, ?_⟩
  · refine ⟨?_, ?_, ?_, ?_, ?_, ?_, ?_⟩
    · rw [hcnt]
      omega
    · rw [hlabel, hcnt, labelList_succ hc, hInv.label_eq]
    · refine ⟨?_, ?_, ?_, ?_, ?_, ?_, ?_, ?_, ?_, ?_, ?_, ?_, ?_, ?_, ?_,
        ?_, ?_, ?_⟩
      · rw [hflow]
        intro p hp
        exact ⟨hmono _ (c1 p hp).1, hmono _ (c1 p hp).2⟩
      · rw [hassign]
        intro l hl
        exact hmono _ (c2 l hl)
      · rw [hcond]
        intro l hl
        exact hmono _ (c3 l hl)
      · rw [hret]
        intro l hl
        rcases List.mem_append.mp hl with hl | hl
        · exact hmono _ (c4 l hl)
        · simp at hl
          subst hl
          exact hmemnew
      · rw [hcall]
        intro p hp
        exact hmono _ (c5 p hp)
      · rw [hused]
        intro p hp
        rcases List.mem_append.mp hp with hp | hp
        · exact hmono _ (c6 p hp)
        · obtain ⟨v, -, rfl⟩ := List.mem_map.mp hp
          exact hmemnew
      · rw [hud]
        intro p hp
        rcases List.mem_append.mp hp with hp | hp
        · exact hmono _ (c7 p hp)
        · obtain ⟨v, -, rfl⟩ := List.mem_map.mp hp
          exact hmemnew
      · rw [hdef]
        intro p hp
        exact hmono _ (c8 p hp)
      · rw [hdd]
        intro p hp
        exact hmono _ (c9 p hp)
      · rw [hrv]
        intro p hp
        exact hmono _ (c10 p hp)
      · rw [hrc]
        intro p hp
        exact hmono _ (c11 p hp)
      · rw [hrd]
        intro p hp
        exact hmono _ (c12 p hp)
      · rw [hra]
        intro p hp
        exact hmono _ (c13 p hp)
      · rw [hcav]
        intro t ht
        exact hmono _ (c14 t ht)
      · rw [hcac]
        intro t ht
        exact hmono _ (c15 t ht)
      · rw [hcad]
        intro t ht
        exact hmono _ (c16 t ht)
      · rw [hinit]
        intro l hl
        exact hmono _ (c17 l hl)
      · rw [hfinal]
        intro l hl
        exact hmono _ (c18 l hl)
    · intro lab
      rw [hrv, hrc, hrd, hra]
      exact hInv.rhs_excl lab
    · intro lab
      rw [hcav, hcac, hcad]
      exact hInv.call_arg_excl lab
    · rw [hret, hflow]
      intro l hl d hld
      rcases List.mem_append.mp hl with hl | hl
      · exact hInv.ret_no_out l hl d hld
      · simp at hl
        subst hl
        exact hfresh (c1 _ hld).1
    · rw [hcall, hfn]
      exact hInv.call_fn
  · rw [hcnt]
    omega
  · rw [hfrag]
    exact hmemnew
  · rw [hfrag]
    intro l hl
    simp at hl
  · rw [hfrag]
    intro l hl
    simp at hl
  · refine ⟨[mkLabel s._availabe_label_index], hret, ?_⟩
    intro l hl
    simp at hl
    subst hl
    exact hfresh

/-- `Post` for a successful `visit_Assignment`. -/
theorem assignment_post {lv rv : CExpr} {s : BuildState}
    {frag : String × List String} {s' : BuildState} (hInv : Inv s)
    (h : visit (.assignment lv rv) s = .ok (frag, s')) : Post s s' frag := by
  obtain ⟨rvars, rderefs, lvars, lderefs, hv1, hv2, hfrag, hcnt, hlabel,
    hflow, hcond, hret, hcall, hfn, hcav, hcac, hcad, hinit, hfinal, hassign,
    hused, hud, hrd, hra, hrv, hrc, hor⟩ := visit_assignment_ok h
  obtain ⟨c1, c2, c3, c4, c5, c6, c7, c8, c9, c10, c11, c12, c13, c14, c15,
    c16, c17, c18⟩ := hInv.refs_closed
  have hc := hInv.counter_pos
  have hfresh : mkLabel s._availabe_label_index ∉ s.edb.label :=
    fresh_label hInv le_rfl
  have hmemnew : mkLabel s._availabe_label_index ∈ s'.edb.label := by
    rw [hlabel]
    simp
  have hmono : ∀ l ∈ s.edb.label, l ∈ s'.edb.label := by
    intro l hl
    rw [hlabel]
    exact List.mem_append_left _ hl
  refine ⟨?_, ?_, ?_, ?_, ?_, ?_⟩
  · refine ⟨?_, ?_, ?_, ?_, ?_, ?_, ?_⟩
    · rw [hcnt]
      omega
    · rw [hlabel, hcnt, labelList_succ hc, hInv.label_eq]
    · refine ⟨?_, ?_, ?_, ?_, ?_, ?_, ?_, ?_, ?_, ?_, ?_, ?_, ?_, ?_, ?_,
        ?_, ?_, ?_⟩
      · rw [hflow]
        intro p hp
        exact ⟨hmono _ (c1 p hp).1, hmono _ (c1 p hp).2⟩
      · rw [hassign]
        intro l hl
        rcases List.mem_append.mp hl with hl | hl
        · exact hmono _ (c2 l hl)
        · simp at hl
          subst hl
          exact hmemnew
      · rw [hcond]
        intro l hl
        exact hmono _ (c3 l hl)
      · rw [hret]
        intro l hl
        exact hmono _ (c4 l hl)
      · rw [hcall]
        intro p hp
        exact hmono _ (c5 p hp)
      · rw [hused]
        intro p hp
        rcases List.mem_append.mp hp with hp | hp
        · exact hmono _ (c6 p hp)
        · obtain ⟨v, -, rfl⟩ := List.mem_map.mp hp
          exact hmemnew
      · rw [hud]
        intro p hp
        rcases List.mem_append.mp hp with hp | hp
        · exact hmono _ (c7 p hp)
        · obtain ⟨v, -, rfl⟩ := List.mem_map.mp hp
          exact hmemnew
      · rcases hor with ⟨-, -, hdef, -⟩ | ⟨-, -, hdef, -⟩
        · rw [hdef]
          intro p hp
          rcases List.mem_append.mp hp with hp | hp
          · exact hmono _ (c8 p hp)
          · obtain ⟨v, -, rfl⟩ := List.mem_map.mp hp
            exact hmemnew
        · rw [hdef]
          intro p hp
          exact hmono _ (c8 p hp)
      · rcases hor with ⟨-, -, -, hdd⟩ | ⟨-, -, -, hdd⟩
        · rw [hdd]
          intro p hp
          exact hmono _ (c9 p hp)
        · rw [hdd]
          intro p hp
          rcases List.mem_append.mp hp with hp | hp
          · exact hmono _ (c9 p hp)
          · obtain ⟨v, -, rfl⟩ := List.mem_map.mp hp
            exact hmemnew
      · rw [hrv]
        intro p hp
        rcases List.mem_append.mp hp with hp | hp
        · exact hmono _ (c10 p hp)
        · rw [mem_match_tuple hp]
          exact hmemnew
      · rw [hrc]
        intro p hp
        rcases List.mem_append.mp hp with hp | hp
        · exact hmono _ (c11 p hp)
        · rw [mem_match_tuple hp]
          exact hmemnew
      · rw [hrd]
        intro p hp
        rcases List.mem_append.mp hp with hp | hp
        · exact hmono _ (c12 p hp)
        · rw [mem_match_tuple hp]
          exact hmemnew
      · rw [hra]
        intro p hp
        rcases List.mem_append.mp hp with hp | hp
        · exact hmono _ (c13 p hp)
        · rw [mem_match_tuple hp]
          exact hmemnew
      · rw [hcav]
        intro t ht
        exact hmono _ (c14 t ht)
      · rw [hcac]
        intro t ht
        exact hmono _ (c15 t ht)
      · rw [hcad]
        intro t ht
        exact hmono _ (c16 t ht)
      · rw [hinit]
        intro l hl
        exact hmono _ (c17 l hl)
      · rw [hfinal]
        intro l hl
        exact hmono _ (c18 l hl)
    · intro lab
      rw [hrv, hrc, hrd, hra, hasLab_append, hasLab_append, hasLab_append,
        hasLab_append]
      by_cases hlab : lab = mkLabel s._availabe_label_index
      · subst hlab
        rw [hasLab_false c10 hfresh, hasLab_false c11 hfresh,
          hasLab_false c12 hfresh, hasLab_false c13 hfresh]
        rcases shape_cases rv with ⟨e1, e2, e3, e4⟩ | ⟨v, e1, e2, e3, e4⟩ |
          ⟨v, e1, e2, e3, e4⟩ | ⟨v, e1, e2, e3, e4⟩ | ⟨v, e1, e2, e3, e4⟩ <;>
          simp [e1, e2, e3, e4, hasLab]
      · rw [hasLab_all_eq (fun p hp => mem_match_tuple hp) hlab,
          hasLab_all_eq (fun p hp => mem_match_tuple hp) hlab,
          hasLab_all_eq (fun p hp => mem_match_tuple hp) hlab,
          hasLab_all_eq (fun p hp => mem_match_tuple hp) hlab]
        simpa using hInv.rhs_excl lab
    · intro lab
      rw [hcav, hcac, hcad]
      exact hInv.call_arg_excl lab
    · rw [hret, hflow]
      exact hInv.ret_no_out
    · rw [hcall, hfn]
      exact hInv.call_fn
  · rw [hcnt]
    omega
  · rw [hfrag]
    exact hmemnew
  · rw [hfrag]
    intro l hl
    simp at hl
    subst hl
    exact hmemnew
  · rw [hfrag, hret]
    intro l hl
    simp at hl
    subst hl
    intro hmem
    exact hfresh (c4 _ hmem)
  · exact ⟨[], by rw [hret, List.append_nil], by simp⟩

/-- `Post` for a successful `visit_FuncCall`. -/
theorem funcCall_post {name : String} {args : Option (List CExpr)}
    {s : BuildState} {frag : String × List String} {s' : BuildState}
    (hInv : Inv s)
    (h : visit (.funcCall name args) s = .ok (frag, s')) : Post s s' frag := by
  obtain ⟨hfrag, hcnt, hlabel, hcall, hfn, hmemfn, hflow, hassign, hcond,
    hret, hdef, hdd, hrv, hrc, hrd, hra, hinit, hfinal, ⟨du, hdu, hdu2⟩,
    ⟨dud, hdud, hdud2⟩, htags⟩ := visit_funcCall_ok h
  obtain ⟨c1, c2, c3, c4, c5, c6, c7, c8, c9, c10, c11, c12, c13, c14, c15,
    c16, c17, c18⟩ := hInv.refs_closed
  have hc := hInv.counter_pos
  have hfresh : mkLabel s._availabe_label_index ∉ s.edb.label :=
    fresh_label hInv le_rfl
  have hmemnew : mkLabel s._availabe_label_index ∈ s'.edb.label := by
    rw [hlabel]
    simp
  have hmono : ∀ l ∈ s.edb.label, l ∈ s'.edb.label := by
    intro l hl
    rw [hlabel]
    exact List.mem_append_left _ hl
  have hfnmono : ∀ x ∈ s.edb.function, x ∈ s'.edb.function := by
    intro x hx
    rcases hfn with hfn | hfn
    · rw [hfn]
      exact hx
    · rw [hfn]
      exact List.mem_append_left _ hx
  refine ⟨?_, ?_, ?_, ?_, ?_, ?_⟩
  · refine ⟨?_, ?_, ?_, ?_, ?_, ?_, ?_⟩
    · rw [hcnt]
      omega
    · rw [hlabel, hcnt, labelList_succ hc, hInv.label_eq]
    · refine ⟨?_, ?_, ?_, ?_, ?_, ?_, ?_, ?_, ?_, ?_, ?_, ?_, ?_, ?_, ?_,
        ?_, ?_, ?_⟩
      · rw [hflow]
        intro p hp
        exact ⟨hmono _ (c1 p hp).1, hmono _ (c1 p hp).2⟩
      · rw [hassign]
        intro l hl
        exact hmono _ (c2 l hl)
      · rw [hcond]
        intro l hl
        exact hmono _ (c3 l hl)
      · rw [hret]
        intro l hl
        exact hmono _ (c4 l hl)
      · rw [hcall]
        intro p hp
        rcases List.mem_append.mp hp with hp | hp
        · exact hmono _ (c5 p hp)
        · simp at hp
          rw [hp]
          exact hmemnew
      · rw [hdu]
        intro p hp
        rcases List.mem_append.mp hp with hp | hp
        · exact hmono _ (c6 p hp)
        · rw [hdu2 p hp]
          exact hmemnew
      · rw [hdud]
        intro p hp
        rcases List.mem_append.mp hp with hp | hp
        · exact hmono _ (c7 p hp)
        · rw [hdud2 p hp]
          exact hmemnew
      · rw [hdef]
        intro p hp
        exact hmono _ (c8 p hp)
      · rw [hdd]
        intro p hp
        exact hmono _ (c9 p hp)
      · rw [hrv]
        intro p hp
        exact hmono _ (c10 p hp)
      · rw [hrc]
        intro p hp
        exact hmono _ (c11 p hp)
      · rw [hrd]
        intro p hp
        exact hmono _ (c12 p hp)
      · rw [hra]
        intro p hp
        exact hmono _ (c13 p hp)
      · rcases htags with ⟨arg, -, -, hv, -⟩ | ⟨-, -, hv, -⟩
        · rw [hv]
          intro t ht
          rcases List.mem_append.mp ht with ht | ht
          · exact hmono _ (c14 t ht)
          · rw [mem_match_tuple3 ht]
            exact hmemnew
        · rw [hv]
          intro t ht
          exact hmono _ (c14 t ht)
      · rcases htags with ⟨arg, -, -, -, hcst⟩ | ⟨-, -, -, hcst⟩
        · rw [hcst]
          intro t ht
          rcases List.mem_append.mp ht with ht | ht
          · exact hmono _ (c15 t ht)
          · rw [mem_match_tuple3 ht]
            exact hmemnew
        · rw [hcst]
          intro t ht
          exact hmono _ (c15 t ht)
      · rcases htags with ⟨arg, -, hdrf, -, -⟩ | ⟨-, hdrf, -, -⟩
        · rw [hdrf]
          intro t ht
          rcases List.mem_append.mp ht with ht | ht
          · exact hmono _ (c16 t ht)
          · rw [mem_match_tuple3 ht]
            exact hmemnew
        · rw [hdrf]
          intro t ht
          exact hmono _ (c16 t ht)
      · rw [hinit]
        intro l hl
        exact hmono _ (c17 l hl)
      · rw [hfinal]
        intro l hl
        exact hmono _ (c18 l hl)
    · intro lab
      rw [hrv, hrc, hrd, hra]
      exact hInv.rhs_excl lab
    · intro lab
      rcases htags with ⟨arg, -, hdrf, hvr, hcst⟩ | ⟨-, hdrf, hvr, hcst⟩
      · rw [hdrf, hvr, hcst, hasLab3_append, hasLab3_append, hasLab3_append]
        by_cases hlab : lab = mkLabel s._availabe_label_index
        · subst hlab
          rw [hasLab3_false c14 hfresh, hasLab3_false c15 hfresh,
            hasLab3_false c16 hfresh]
          rcases shape_cases arg with ⟨e1, e2, e3, e4⟩ | ⟨v, e1, e2, e3, e4⟩ |
            ⟨v, e1, e2, e3, e4⟩ | ⟨v, e1, e2, e3, e4⟩ |
            ⟨v, e1, e2, e3, e4⟩ <;>
            simp [e1, e3, e4, hasLab3]
        · rw [hasLab3_all_eq (fun t ht => mem_match_tuple3 ht) hlab,
            hasLab3_all_eq (fun t ht => mem_match_tuple3 ht) hlab,
            hasLab3_all_eq (fun t ht => mem_match_tuple3 ht) hlab]
          simpa using hInv.call_arg_excl lab
      · rw [hdrf, hvr, hcst]
        exact hInv.call_arg_excl lab
    · rw [hret, hflow]
      exact hInv.ret_no_out
    · rw [hcall]
      intro p hp
      rcases List.mem_append.mp hp with hp | hp
      · exact hfnmono _ (hInv.call_fn p hp)
      · simp at hp
        rw [hp]
        exact hmemfn
  · rw [hcnt]
    omega
  · rw [hfrag]
    exact hmemnew
  · rw [hfrag]
    intro l hl
    simp at hl
    subst hl
    exact hmemnew
  · rw [hfrag, hret]
    intro l hl
    simp at hl
    subst hl
    intro hmem
    exact hfresh (c4 _ hmem)
  · exact ⟨[], by rw [hret, List.append_nil], by simp⟩

theorem fresh_not_ret {s : BuildState} (hInv : Inv s) :
    mkLabel s._availabe_label_index ∉ s.edb.«return» := fun hm =>
  fresh_label hInv le_rfl (hInv.refs_closed.2.2.2.1 _ hm)

theorem post_label_mono {s s' : BuildState} {frag : String × List String}
    (hInv : Inv s) (hp : Post s s' frag) :
    ∀ l ∈ s.edb.label, l ∈ s'.edb.label := by
  intro l hl
  rw [hp.inv'.label_eq]
  rw [hInv.label_eq] at hl
  exact labelList_sub hp.cnt_le l hl

theorem postSeq_label_mono {s s' : BuildState} {finals : List String}
    (hInv : Inv s) (hp : PostSeq s s' finals) :
    ∀ l ∈ s.edb.label, l ∈ s'.edb.label := by
  intro l hl
  rw [hp.inv'.label_eq]
  rw [hInv.label_eq] at hl
  exact labelList_sub hp.cnt_le l hl

theorem post_not_ret_mono {s s' : BuildState} {frag : String × List String}
    (hp : Post s s' frag) {l : String} (hl : l ∈ s.edb.label)
    (hnr : l ∉ s.edb.«return») : l ∉ s'.edb.«return» := by
  obtain ⟨Δ, hΔ, hΔ2⟩ := hp.ret_growth
  rw [hΔ]
  intro hmem
  rcases List.mem_append.mp hmem with hm | hm
  · exact hnr hm
  · exact hΔ2 l hm hl

/-- `Inv` survives the condition-block prelude shared by `visit_If` and
`visit_While`: allocate the block, append the label to `condition`, scan the
condition and record its reads. -/
theorem cond_prelude_inv (s : BuildState) (cv cd : Finset String)
    (hInv : Inv s) :
    Inv { _availabe_label_index := s._availabe_label_index + 1,
          edb := {
            flow := s.edb.flow,
            label := s.edb.label ++ [mkLabel s._availabe_label_index],
            «variable» :=
              addVariables (setList cv ++ setList cd) s.edb.«variable»,
            assignment := s.edb.assignment,
            condition := s.edb.condition ++ [mkLabel s._availabe_label_index],
            «return» := s.edb.«return»,
            call := s.edb.call,
            function := s.edb.function,
            used := s.edb.used ++ (setList (cv ∪ cd)).map
              (fun v => (v, mkLabel s._availabe_label_index)),
            defined := s.edb.defined,
            defined_deref := s.edb.defined_deref,
            used_deref := s.edb.used_deref ++ (setList cd).map
              (fun v => (v, mkLabel s._availabe_label_index)),
            rhs_var := s.edb.rhs_var,
            rhs_const := s.edb.rhs_const,
            rhs_deref := s.edb.rhs_deref,
            rhs_address := s.edb.rhs_address,
            call_arg_var := s.edb.call_arg_var,
            call_arg_const := s.edb.call_arg_const,
            call_arg_deref := s.edb.call_arg_deref,
            init := s.edb.init,
            final := s.edb.final } } := by
  obtain ⟨c1, c2, c3, c4, c5, c6, c7, c8, c9, c10, c11, c12, c13, c14, c15,
    c16, c17, c18⟩ := hInv.refs_closed
  have hc := hInv.counter_pos
  have hmemnew : mkLabel s._availabe_label_index ∈
      s.edb.label ++ [mkLabel s._availabe_label_index] := by simp
  have hmono : ∀ l ∈ s.edb.label,
      l ∈ s.edb.label ++ [mkLabel s._availabe_label_index] := by
    intro l hl
    exact List.mem_append_left _ hl
  refine ⟨by show 1 ≤ s._availabe_label_index + 1; omega, ?_, ?_, ?_, ?_,
    ?_, ?_⟩
  · show s.edb.label ++ [mkLabel s._availabe_label_index] =
      labelList (s._availabe_label_index + 1)
    rw [labelList_succ hc, hInv.label_eq]
  · refine ⟨?_, ?_, ?_, ?_, ?_, ?_, ?_, ?_, ?_, ?_, ?_, ?_, ?_, ?_, ?_,
      ?_, ?_, ?_⟩
    · intro p hp
      exact ⟨hmono _ (c1 p hp).1, hmono _ (c1 p hp).2⟩
    · intro l hl
      exact hmono _ (c2 l hl)
    · intro l hl
      rcases List.mem_append.mp hl with hl | hl
      · exact hmono _ (c3 l hl)
      · simp at hl
        subst hl
        exact hmemnew
    · intro l hl
      exact hmono _ (c4 l hl)
    · intro p hp
      exact hmono _ (c5 p hp)
    · intro p hp
      rcases List.mem_append.mp hp with hp | hp
      · exact hmono _ (c6 p hp)
      · obtain ⟨v, -, rfl⟩ := List.mem_map.mp hp
        exact hmemnew
    · intro p hp
      rcases List.mem_append.mp hp with hp | hp
      · exact hmono _ (c7 p hp)
      · obtain ⟨v, -, rfl⟩ := List.mem_map.mp hp
        exact hmemnew
    · intro p hp
      exact hmono _ (c8 p hp)
    · intro p hp
      exact hmono _ (c9 p hp)
    · intro p hp
      exact hmono _ (c10 p hp)
    · intro p hp
      exact hmono _ (c11 p hp)
    · intro p hp
      exact hmono _ (c12 p hp)
    · intro p hp
      exact hmono _ (c13 p hp)
    · intro t ht
      exact hmono _ (c14 t ht)
    · intro t ht
      exact hmono _ (c15 t ht)
    · intro t ht
      exact hmono _ (c16 t ht)
    · intro l hl
      exact hmono _ (c17 l hl)
    · intro l hl
      exact hmono _ (c18 l hl)
  · exact hInv.rhs_excl
  · exact hInv.call_arg_excl
  · exact hInv.ret_no_out
  · exact hInv.call_fn

theorem add_arc_inv {s : BuildState} {src dst : String} (tag : Option String)
    (hInv : Inv s) (hsrc : src ∈ s.edb.label) (hdst : dst ∈ s.edb.label)
    (hnret : src ∉ s.edb.«return») : Inv (_add_arc src dst tag s) := by
  obtain ⟨c1, c2, c3, c4, c5, c6, c7, c8, c9, c10, c11, c12, c13, c14, c15,
    c16, c17, c18⟩ := hInv.refs_closed
  refine ⟨hInv.counter_pos, hInv.label_eq, ⟨?_, c2, c3, c4, c5, c6, c7, c8,
    c9, c10, c11, c12, c13, c14, c15, c16, c17, c18⟩, hInv.rhs_excl,
    hInv.call_arg_excl, ?_, hInv.call_fn⟩
  · intro p hp
    rcases List.mem_append.mp hp with hp | hp
    · exact c1 p hp
    · simp at hp
      rw [hp]
      exact ⟨hsrc, hdst⟩
  · intro l hl d hld
    rcases List.mem_append.mp hld with hld | hld
    · exact hInv.ret_no_out l hl d hld
    · simp at hld
      exact hnret (hld.1 ▸ hl)

theorem _add_arcs_sound (sources : List String) (destination : String) :
    ∀ s : BuildState, Inv s → (∀ x ∈ sources, x ∈ s.edb.label) →
      destination ∈ s.edb.label → (∀ x ∈ sources, x ∉ s.edb.«return») →
      Inv (_add_arcs sources destination s) ∧
      (_add_arcs sources destination s)._availabe_label_index =
        s._availabe_label_index ∧
      (_add_arcs sources destination s).edb.label = s.edb.label ∧
      (_add_arcs sources destination s).edb.«return» = s.edb.«return» := by
  induction sources with
  | nil =>
      intro s hInv _ _ _
      exact ⟨hInv, rfl, rfl, rfl⟩
  | cons x rest ih =>
      intro s hInv hsrcs hdst hnret
      rw [_add_arcs]
      have h1 := add_arc_inv none hInv (hsrcs x (by simp)) hdst
        (hnret x (by simp))
      exact ih (_add_arc x destination none s) h1
        (fun y hy => hsrcs y (by simp [hy])) hdst
        (fun y hy => hnret y (by simp [hy]))

/-- Main soundness induction: a successful `visit` (resp. the sequencing
loop `visitSeq`) preserves the invariant and satisfies `Post`
(resp. `PostSeq`), by strong induction on the statement size. -/
theorem visit_sound : ∀ n : Nat,
    (∀ (st : CStmt) (s : BuildState) (frag : String × List String)
        (s' : BuildState), sizeOf st ≤ n → Inv s →
        visit st s = .ok (frag, s') → Post s s' frag) ∧
    (∀ (l : List CStmt) (prev : List String) (s : BuildState)
        (finals : List String) (s' : BuildState), sizeOf l ≤ n → Inv s →
        (∀ x ∈ prev, x ∈ s.edb.label) → (∀ x ∈ prev, x ∉ s.edb.«return») →
        visitSeq l prev s = .ok (finals, s') → PostSeq s s' finals) := by
  intro n
  induction n with
  | zero =>
      constructor
      · intro st s frag s' hsize
        exact absurd hsize (by cases st <;> simp)
      · intro l prev s finals s' hsize
        exact absurd hsize (by cases l <;> simp)
  | succ n ih =>
      obtain ⟨ihS, ihL⟩ := ih
      constructor
      · intro st s frag s' hsize hInv h
        cases st with
        | assignment lv rv => exact assignment_post hInv h
        | funcCall name args => exact funcCall_post hInv h
        | ret expr => exact return_post hInv h
        | otherStmt kind =>
            rw [visit] at h
            exact absurd h (by simp)
        | compound items =>
            rcases items with _ | ⟨_ | ⟨head, tail⟩⟩
            · rw [visit] at h
              exact absurd h (by simp)
            · rw [visit] at h
              exact absurd h (by simp)
            · rw [visit] at h
              split at h
              · exact absurd h (by simp)
              · rename_i hi hf s₁ heq1
                split at h
                · exact absurd h (by simp)
                · rename_i pf s₂ heq2
                  simp only [Except.ok.injEq, Prod.mk.injEq] at h
                  obtain ⟨hfrag, hs⟩ := h
                  subst hs
                  subst hfrag
                  have hph : Post s s₁ (hi, hf) :=
                    ihS head _ _ _ (by simp at hsize; omega) hInv heq1
                  have hps : PostSeq s₁ s₂ pf :=
                    ihL tail hf s₁ _ _ (by simp at hsize; omega) hph.inv'
                      hph.finals_mem hph.finals_not_ret heq2
                  obtain ⟨Δ₁, hΔ₁, hΔ₁f⟩ := hph.ret_growth
                  obtain ⟨Δ₂, hΔ₂, hΔ₂f⟩ := hps.ret_growth
                  refine ⟨hps.inv', le_trans hph.cnt_le hps.cnt_le,
                    postSeq_label_mono hph.inv' hps _ hph.init_mem,
                    hps.finals_mem, hps.finals_not_ret,
                    Δ₁ ++ Δ₂, ?_, ?_⟩
                  · rw [hΔ₂, hΔ₁, List.append_assoc]
                  · intro l hl
                    rcases List.mem_append.mp hl with hl | hl
                    · exact hΔ₁f l hl
                    · intro hmem
                      exact hΔ₂f l hl (post_label_mono hInv hph _ hmem)
        | ifStmt cond iftrue iffalse =>
            rcases cond with _ | c
            · rw [visit] at h
              exact absurd h (by simp)
            · rcases iftrue with _ | t <;> rcases iffalse with _ | f
              · rw [visit] at h
                simp only [_add_elementary_block, _new_label] at h
                split at h <;> exact absurd h (by simp)
              · -- if with only a false branch
                rw [visit] at h
                simp only [_add_elementary_block, _new_label, _add_used] at h
                split at h
                · exact absurd h (by simp)
                · rename_i cv cd s₂ heq1
                  obtain ⟨-, hs₂⟩ := _process_expr_ok heq1
                  subst hs₂
                  split at h
                  · exact absurd h (by simp)
                  · rename_i fi ff s₅ heq2
                    simp only [Except.ok.injEq, Prod.mk.injEq] at h
                    obtain ⟨hfrag, hs⟩ := h
                    subst hs
                    subst hfrag
                    have hPSinv := cond_prelude_inv s cv cd hInv
                    have hpf : Post _ s₅ (fi, ff) :=
                      ihS f _ _ _ (by simp at hsize; omega) hPSinv heq2
                    have hlabPS : mkLabel s._availabe_label_index ∈
                        s.edb.label ++ [mkLabel s._availabe_label_index] := by
                      simp
                    have hlabmem : mkLabel s._availabe_label_index ∈
                        s₅.edb.label := post_label_mono hPSinv hpf _ hlabPS
                    have hlabnr : mkLabel s._availabe_label_index ∉
                        s₅.edb.«return» :=
                      post_not_ret_mono hpf hlabPS (fresh_not_ret hInv)
                    have hInvArc : Inv (_add_arc
                        (mkLabel s._availabe_label_index) fi (some "false")
                        s₅) :=
                      add_arc_inv _ hpf.inv' hlabmem hpf.init_mem hlabnr
                    have hc5 : s._availabe_label_index + 1 ≤
                        s₅._availabe_label_index := hpf.cnt_le
                    obtain ⟨Δ, hΔ, hΔf⟩ := hpf.ret_growth
                    refine ⟨hInvArc,
                      by show s._availabe_label_index ≤
                           s₅._availabe_label_index
                         omega,
                      hlabmem, ?_, ?_, Δ, hΔ, ?_⟩
                    · intro l hl
                      rcases List.mem_cons.mp hl with hl | hl
                      · subst hl
                        exact hlabmem
                      · exact hpf.finals_mem l hl
                    · intro l hl
                      rcases List.mem_cons.mp hl with hl | hl
                      · subst hl
                        exact hlabnr
                      · exact hpf.finals_not_ret l hl
                    · intro l hl hmem
                      exact hΔf l hl (List.mem_append_left _ hmem)
              · -- if with only a true branch
                rw [visit] at h
                simp only [_add_elementary_block, _new_label, _add_used] at h
                split at h
                · exact absurd h (by simp)
                · rename_i cv cd s₂ heq1
                  obtain ⟨-, hs₂⟩ := _process_expr_ok heq1
                  subst hs₂
                  split at h
                  · exact absurd h (by simp)
                  · rename_i ti tf s₅ heq2
                    simp only [Except.ok.injEq, Prod.mk.injEq] at h
                    obtain ⟨hfrag, hs⟩ := h
                    subst hs
                    subst hfrag
                    have hPSinv := cond_prelude_inv s cv cd hInv
                    have hpt : Post _ s₅ (ti, tf) :=
                      ihS t _ _ _ (by simp at hsize; omega) hPSinv heq2
                    have hlabPS : mkLabel s._availabe_label_index ∈
                        s.edb.label ++ [mkLabel s._availabe_label_index] := by
                      simp
                    have hlabmem : mkLabel s._availabe_label_index ∈
                        s₅.edb.label := post_label_mono hPSinv hpt _ hlabPS
                    have hlabnr : mkLabel s._availabe_label_index ∉
                        s₅.edb.«return» :=
                      post_not_ret_mono hpt hlabPS (fresh_not_ret hInv)
                    have hInvArc : Inv (_add_arc
                        (mkLabel s._availabe_label_index) ti (some "true")
                        s₅) :=
                      add_arc_inv _ hpt.inv' hlabmem hpt.init_mem hlabnr
                    have hc5 : s._availabe_label_index + 1 ≤
                        s₅._availabe_label_index := hpt.cnt_le
                    obtain ⟨Δ, hΔ, hΔf⟩ := hpt.ret_growth
                    refine ⟨hInvArc,
                      by show s._availabe_label_index ≤
                           s₅._availabe_label_index
                         omega,
                      hlabmem, ?_, ?_, Δ, hΔ, ?_⟩
                    · intro l hl
                      rcases List.mem_append.mp hl with hl | hl
                      · exact hpt.finals_mem l hl
                      · simp at hl
                        subst hl
                        exact hlabmem
                    · intro l hl
                      rcases List.mem_append.mp hl with hl | hl
                      · exact hpt.finals_not_ret l hl
                      · simp at hl
                        subst hl
                        exact hlabnr
                    · intro l hl hmem
                      exact hΔf l hl (List.mem_append_left _ hmem)
              · -- if with both branches
                rw [visit] at h
                simp only [_add_elementary_block, _new_label, _add_used] at h
                split at h
                · exact absurd h (by simp)
                · rename_i cv cd s₂ heq1
                  obtain ⟨-, hs₂⟩ := _process_expr_ok heq1
                  subst hs₂
                  split at h
                  · exact absurd h (by simp)
                  · rename_i ti tf s₅ heq2
                    split at h
                    · exact absurd h (by simp)
                    · rename_i fi ff s₇ heq3
                      simp only [Except.ok.injEq, Prod.mk.injEq] at h
                      obtain ⟨hfrag, hs⟩ := h
                      subst hs
                      subst hfrag
                      have hPSinv := cond_prelude_inv s cv cd hInv
                      have hpt : Post _ s₅ (ti, tf) :=
                        ihS t _ _ _ (by simp at hsize; omega) hPSinv heq2
                      have hlabPS : mkLabel s._availabe_label_index ∈
                          s.edb.label ++
                            [mkLabel s._availabe_label_index] := by
                        simp
                      have hlabmem5 : mkLabel s._availabe_label_index ∈
                          s₅.edb.label := post_label_mono hPSinv hpt _ hlabPS
                      have hlabnr5 : mkLabel s._availabe_label_index ∉
                          s₅.edb.«return» :=
                        post_not_ret_mono hpt hlabPS (fresh_not_ret hInv)
                      have hInv6 : Inv (_add_arc
                          (mkLabel s._availabe_label_index) ti (some "true")
                          s₅) :=
                        add_arc_inv _ hpt.inv' hlabmem5 hpt.init_mem hlabnr5
                      have hpf : Post _ s₇ (fi, ff) :=
                        ihS f _ _ _ (by simp at hsize; omega) hInv6 heq3
                      have hlabmem7 : mkLabel s._availabe_label_index ∈
                          s₇.edb.label :=
                        post_label_mono hInv6 hpf _ hlabmem5
                      have hlabnr7 : mkLabel s._availabe_label_index ∉
                          s₇.edb.«return» :=
                        post_not_ret_mono hpf hlabmem5 hlabnr5
                      have hInvArc : Inv (_add_arc
                          (mkLabel s._availabe_label_index) fi (some "false")
                          s₇) :=
                        add_arc_inv _ hpf.inv' hlabmem7 hpf.init_mem hlabnr7
                      have hc5 : s._availabe_label_index + 1 ≤
                          s₅._availabe_label_index := hpt.cnt_le
                      have hc7 : s₅._availabe_label_index ≤
                          s₇._availabe_label_index := hpf.cnt_le
                      obtain ⟨Δ₁, hΔ₁, hΔ₁f⟩ := hpt.ret_growth
                      obtain ⟨Δ₂, hΔ₂, hΔ₂f⟩ := hpf.ret_growth
                      refine ⟨hInvArc,
                        by show s._availabe_label_index ≤
                             s₇._availabe_label_index
                           omega,
                        hlabmem7, ?_, ?_, Δ₁ ++ Δ₂, ?_, ?_⟩
                      · intro l hl
                        rcases List.mem_append.mp hl with hl | hl
                        · exact post_label_mono hInv6 hpf _
                            (hpt.finals_mem l hl)
                        · exact hpf.finals_mem l hl
                      · intro l hl
                        rcases List.mem_append.mp hl with hl | hl
                        · exact post_not_ret_mono hpf (hpt.finals_mem l hl)
                            (hpt.finals_not_ret l hl)
                        · exact hpf.finals_not_ret l hl
                      · show s₇.edb.«return» = s.edb.«return» ++ (Δ₁ ++ Δ₂)
                        rw [hΔ₂]
                        show s₅.edb.«return» ++ Δ₂ = _
                        rw [hΔ₁, List.append_assoc]
                      · intro l hl
                        rcases List.mem_append.mp hl with hl | hl
                        · intro hmem
                          exact hΔ₁f l hl (List.mem_append_left _ hmem)
                        · intro hmem
                          exact hΔ₂f l hl (post_label_mono hPSinv hpt _
                            (List.mem_append_left _ hmem))
        | whileStmt cond stmt =>
            rcases cond with _ | c
            · rw [visit] at h
              exact absurd h (by simp)
            · rcases stmt with _ | body
              · rw [visit] at h
                simp only [_add_elementary_block, _new_label, _add_used] at h
                split at h
                · exact absurd h (by simp)
                · rename_i cv cd s₂ heq1
                  obtain ⟨-, hs₂⟩ := _process_expr_ok heq1
                  subst hs₂
                  simp only [Except.ok.injEq, Prod.mk.injEq] at h
                  obtain ⟨hfrag, hs⟩ := h
                  subst hs
                  subst hfrag
                  have hPSinv := cond_prelude_inv s cv cd hInv
                  refine ⟨hPSinv,
                    by show s._availabe_label_index ≤
                        s._availabe_label_index + 1
                       omega, ?_, ?_, ?_, [], by simp, by simp⟩
                  · show mkLabel s._availabe_label_index ∈
                      s.edb.label ++ [mkLabel s._availabe_label_index]
                    simp
                  · intro l hl
                    simp at hl
                    subst hl
                    show mkLabel s._availabe_label_index ∈
                      s.edb.label ++ [mkLabel s._availabe_label_index]
                    simp
                  · intro l hl
                    simp at hl
                    subst hl
                    exact fresh_not_ret hInv
              · rw [visit] at h
                simp only [_add_elementary_block, _new_label, _add_used] at h
                split at h
                · exact absurd h (by simp)
                · rename_i cv cd s₂ heq1
                  obtain ⟨-, hs₂⟩ := _process_expr_ok heq1
                  subst hs₂
                  split at h
                  · exact absurd h (by simp)
                  · rename_i bi bf s₅ heq2
                    simp only [Except.ok.injEq, Prod.mk.injEq] at h
                    obtain ⟨hfrag, hs⟩ := h
                    subst hs
                    subst hfrag
                    have hPSinv := cond_prelude_inv s cv cd hInv
                    have hpb : Post _ s₅ (bi, bf) :=
                      ihS body _ _ _ (by simp at hsize; omega) hPSinv heq2
                    have hlabPS : mkLabel s._availabe_label_index ∈
                        s.edb.label ++ [mkLabel s._availabe_label_index] := by
                      simp
                    have hlabmem : mkLabel s._availabe_label_index ∈
                        s₅.edb.label := post_label_mono hPSinv hpb _ hlabPS
                    have hlabnr : mkLabel s._availabe_label_index ∉
                        s₅.edb.«return» :=
                      post_not_ret_mono hpb hlabPS (fresh_not_ret hInv)
                    have hInv6 : Inv (_add_arc
                        (mkLabel s._availabe_label_index) bi (some "true")
                        s₅) :=
                      add_arc_inv _ hpb.inv' hlabmem hpb.init_mem hlabnr
                    have harcs := _add_arcs_sound bf
                      (mkLabel s._availabe_label_index) _ hInv6
                      hpb.finals_mem hlabmem hpb.finals_not_ret
                    obtain ⟨hInv', hcA, hlA, hrA⟩ := harcs
                    have hc5 : s._availabe_label_index + 1 ≤
                        s₅._availabe_label_index := hpb.cnt_le
                    obtain ⟨Δ, hΔ, hΔf⟩ := hpb.ret_growth
                    refine ⟨hInv', by rw [hcA]; show _ ≤
                        s₅._availabe_label_index; omega, ?_, ?_, ?_,
                      Δ, ?_, ?_⟩
                    · show _ ∈ (_add_arcs bf (mkLabel
                        s._availabe_label_index) (_add_arc _ bi _ s₅)).edb.label
                      rw [hlA]
                      exact hlabmem
                    · intro l hl
                      simp at hl
                      subst hl
                      rw [hlA]
                      exact hlabmem
                    · intro l hl
                      simp at hl
                      subst hl
                      rw [hrA]
                      exact hlabnr
                    · rw [hrA]
                      exact hΔ
                    · intro l hl hmem
                      exact hΔf l hl (List.mem_append_left _ hmem)
      · intro l prev s finals s' hsize hInv hprev hprevret h
        cases l with
        | nil =>
            rw [visitSeq] at h
            simp only [Except.ok.injEq, Prod.mk.injEq] at h
            obtain ⟨hfin, hs⟩ := h
            subst hs
            subst hfin
            exact ⟨hInv, le_rfl, hprev, hprevret, [], by simp, by simp⟩
        | cons stmt rest =>
            rw [visitSeq] at h
            split at h
            · exact absurd h (by simp)
            · rename_i ci cf s₁ heq1
              have hps : Post s s₁ (ci, cf) :=
                ihS stmt _ _ _ (by simp at hsize; omega) hInv heq1
              have harcs := _add_arcs_sound prev ci s₁ hps.inv'
                (fun x hx => post_label_mono hInv hps x (hprev x hx))
                hps.init_mem
                (fun x hx => post_not_ret_mono hps (hprev x hx)
                  (hprevret x hx))
              obtain ⟨hInv₂, hc₂, hl₂, hr₂⟩ := harcs
              have hseq : PostSeq (_add_arcs prev ci s₁) s' finals :=
                ihL rest cf _ _ _ (by simp at hsize; omega) hInv₂
                  (fun x hx => by rw [hl₂]; exact hps.finals_mem x hx)
                  (fun x hx => by rw [hr₂]; exact hps.finals_not_ret x hx)
                  h
              obtain ⟨Δ₁, hΔ₁, hΔ₁f⟩ := hps.ret_growth
              obtain ⟨Δ₂, hΔ₂, hΔ₂f⟩ := hseq.ret_growth
              refine ⟨hseq.inv', ?_, hseq.finals_mem, hseq.finals_not_ret,
                Δ₁ ++ Δ₂, ?_, ?_⟩
              · have h1 := hps.cnt_le
                have h2 := hseq.cnt_le
                rw [hc₂] at h2
                omega
              · rw [hΔ₂, hr₂, hΔ₁, List.append_assoc]
              · intro x hx
                rcases List.mem_append.mp hx with hx | hx
                · exact hΔ₁f x hx
                · intro hmem
                  apply hΔ₂f x hx
                  rw [hl₂]
                  exact post_label_mono hInv hps _ hmem

/-- The freshly initialized visitor satisfies the invariant. -/
theorem initState_inv : Inv initState := by
  refine ⟨le_rfl, rfl, ?_, ?_, ?_, ?_, ?_⟩
  · refine ⟨?_, ?_, ?_, ?_, ?_, ?_, ?_, ?_, ?_, ?_, ?_, ?_, ?_, ?_, ?_, ?_,
      ?_, ?_⟩ <;> intro x hx <;> simp [initState] at hx
  · intro lab
    simp [initState, hasLab]
  · intro lab
    simp [initState, hasLab3]
  · intro l hl
    simp [initState] at hl
  · intro p hp
    simp [initState] at hp

/-- Everything `generate_cfg` guarantees about the final fact base of an
accepted program: distinct labels, label closure of every relation,
`rhs_*`/`call_arg_*` exclusivity, `return ⊆ final`, and no outgoing `flow`
edge from a return label. -/
theorem generate_cfg_sound {ast : FileAST} {edb : EDB}
    (h : generate_cfg ast = .ok edb) :
    edb.label.Nodup ∧
    (∀ l ∈ labelRefs edb, l ∈ edb.label) ∧
    RhsExcl edb ∧ CallArgExcl edb ∧
    (∀ l ∈ edb.«return», l ∈ edb.final) ∧
    (∀ l ∈ edb.«return», ∀ d, (l, d) ∉ edb.flow) := by
  unfold generate_cfg at h
  split at h
  · exact absurd h (by simp)
  · rename_i r init finals v heq
    simp only [Except.ok.injEq] at h
    subst h
    rw [visit_FileAST] at heq
    split at heq
    · exact absurd heq (by simp)
    · split at heq
      · exact absurd heq (by simp)
      · split at heq
        · rename_i name body hext
          rw [visit_FuncDef] at heq
          split at heq
          · have hpost : Post initState v (init, finals) :=
              (visit_sound (sizeOf body)).1 body initState _ _ le_rfl
                initState_inv heq
            have hInv := hpost.inv'
            obtain ⟨c1, c2, c3, c4, c5, c6, c7, c8, c9, c10, c11, c12, c13,
              c14, c15, c16, -, -⟩ := hInv.refs_closed
            have hfin : ∀ l ∈ (finals ++ v.edb.«return»).dedup,
                l ∈ v.edb.label := by
              intro l hl
              rw [List.mem_dedup] at hl
              rcases List.mem_append.mp hl with hl | hl
              · exact hpost.finals_mem l hl
              · exact c4 l hl
            refine ⟨?_, ?_, ?_, ?_, ?_, ?_⟩
            · show v.edb.label.Nodup
              rw [hInv.label_eq]
              exact labelList_nodup _
            · refine labelRefs_of_labelClosed ⟨c1, c2, c3, c4, c5, c6, c7,
                c8, c9, c10, c11, c12, c13, c14, c15, c16, ?_, ?_⟩
              · intro l hl
                simp only [List.mem_singleton] at hl
                subst hl
                exact hpost.init_mem
              · exact hfin
            · exact hInv.rhs_excl
            · exact hInv.call_arg_excl
            · intro l hl
              show l ∈ (finals ++ v.edb.«return»).dedup
              rw [List.mem_dedup]
              exact List.mem_append_right _ hl
            · exact hInv.ret_no_out
          · exact absurd heq (by simp)
        · exact absurd heq (by simp)

/-- **C1 (counterexample).** In `main(){ if (x) { y = 1; } }` the condition
label `l1` is an open exit (the absent `else` makes it fall through), so it
lands in `final` — yet it has the outgoing `true`-edge `(l1, l2)` in `flow`.
`final` labels therefore do not all have zero outgoing edges. -/
theorem C1_counterexample :
    ∃ edb, generate_cfg progIf = Except.ok edb ∧
      "l1" ∈ edb.final ∧ ("l1", "l2") ∈ edb.flow :=
  ⟨_, rfl, by decide⟩

/-- **C1 (amended).** For every accepted program, every label in the
`return` relation is a member of `final`, and every *return* label has zero
outgoing edges in `flow` (an open-exit label in `final` that is not a
return — a loop condition or a one-armed `if` condition — may have
outgoing edges). -/
theorem C1_return_sinks (ast : FileAST) (edb : EDB)
    (h : generate_cfg ast = .ok edb) :
    (∀ l ∈ edb.«return», l ∈ edb.final) ∧
    (∀ l ∈ edb.«return», ∀ d, (l, d) ∉ edb.flow) :=
  ⟨(generate_cfg_sound h).2.2.2.2.1, (generate_cfg_sound h).2.2.2.2.2⟩

/-- Witness for `C1_return_sinks`: Scenario A, `main(){ return 0; }`. -/
theorem C1_witness :
    ∃ edb, generate_cfg progA = Except.ok edb ∧
      (∀ l ∈ edb.«return», l ∈ edb.final) ∧
      (∀ l ∈ edb.«return», ∀ d, (l, d) ∉ edb.flow) :=
  ⟨_, rfl, C1_return_sinks progA _ rfl⟩

/-- **C7.** Shape exclusivity: in the fact base of any accepted program, at
most one of `rhs_var`/`rhs_const`/`rhs_deref`/`rhs_address` contains a tuple
with any given label, and at most one of
`call_arg_var`/`call_arg_const`/`call_arg_deref` contains a tuple with any
given label. -/
theorem C7_shape_exclusivity (ast : FileAST) (edb : EDB)
    (h : generate_cfg ast = .ok edb) :
    RhsExcl edb ∧ CallArgExcl edb :=
  ⟨(generate_cfg_sound h).2.2.1, (generate_cfg_sound h).2.2.2.1⟩

/-- Witness for `C7_shape_exclusivity`: `main(){ f(x); return 0; }`. -/
theorem C7_witness :
    ∃ edb, generate_cfg progCallVar = Except.ok edb ∧
      RhsExcl edb ∧ CallArgExcl edb :=
  ⟨_, rfl, C7_shape_exclusivity progCallVar _ rfl⟩

/-- **C8.** For every accepted program the entries of `label` are pairwise
distinct (labels come from the strictly increasing counter of `_new_label`
and are never reused), and every label value referenced in any other
relation — the label columns of `flow`, `assignment`, `condition`,
`return`, `call`, `used`, `used_deref`, `defined`, `defined_deref`,
`rhs_*`, `call_arg_*`, `init` and `final` — is a member of `label`
(`variable` and `function` hold names, not labels). -/
theorem C8_label_uniqueness (ast : FileAST) (edb : EDB)
    (h : generate_cfg ast = .ok edb) :
    edb.label.Nodup ∧ ∀ l ∈ labelRefs edb, l ∈ edb.label :=
  ⟨(generate_cfg_sound h).1, (generate_cfg_sound h).2.1⟩

/-- Witness for `C8_label_uniqueness`: Scenario B,
`main(){ x = 1; return x; }`. -/
theorem C8_witness :
    ∃ edb, generate_cfg progB = Except.ok edb ∧
      edb.label.Nodup ∧ ∀ l ∈ labelRefs edb, l ∈ edb.label :=
  ⟨_, rfl, C8_label_uniqueness progB _ rfl⟩

end Analyse
